import Mathlib

/-!
# Marker-line extraction of `overhead.cpp`

A shallow embedding of `load_overlay_image_and_determine_marker_lines` and its
helpers (`transparent`, `add_marker_rectangle`) from `src/overhead.cpp`, together
with the countdown clock (`set_expiry_time`, `calculate_time_until_expiry`) and the
command-line splitter (`consume_and_dup_command_line_argument`).

Conventions of the embedding:

* The decoded pixel buffer is a function from byte offsets to byte values.
* Pixel coordinates, loop counters and the bounds stored in `RowInfo` are C `int`s
  that never become negative; they are natural numbers here.
* Rectangle fields and rectangle indices are C `int`s that are compared with `0`
  and `-1`; they are integers here.  Every subtraction that feeds a rectangle is
  carried out on integers.
* `g_marker_windows.array` is the list of its first `n_used` entries, so `n_used`
  is the length of that list.  The `HWND` field is not touched by the code
  modelled here and is left out.  Allocation is assumed to succeed.
* The two readings of `GetLocalTime` are inputs of the clock functions; `WORD` fields
  are natural numbers and every store into one is reduced modulo 65536.
* A command line is the list of the characters in front of its terminating NUL.
-/

namespace Overhead

/-! ## Data model -/

/-- Decoded RGBA image: `stbi_load` output with four components per pixel. -/
structure Image where
  image_width : Nat
  image_height : Nat
  data : Nat → Nat

/-- The local `struct RowInfo`. -/
structure RowInfo where
  transparent_start : Nat
  transparent_end : Nat
deriving DecidableEq, Repr

/-- The `struct MarkerWindow` without its window handle. -/
structure MarkerWindow where
  x : Int
  y : Int
  w : Int
  h : Int
deriving DecidableEq, Repr, Inhabited

/-- The `struct MarkerWindowArray`; `array` holds the `n_used` entries in use. -/
structure MarkerWindowArray where
  array : List MarkerWindow
  n_allocated : Nat
deriving DecidableEq, Repr

/-- The field `n_used` of `MarkerWindowArray`. -/
def MarkerWindowArray.n_used (g : MarkerWindowArray) : Nat := g.array.length

/-! ## `add_marker_rectangle` and `transparent` -/

/-- The function `add_marker_rectangle`: returns the new array and the returned index. -/
def add_marker_rectangle (g : MarkerWindowArray) (x y w h : Int) : MarkerWindowArray × Int :=
  if w ≤ 0 ∨ h ≤ 0 then
    (g, -1)
  else
    let n_allocated := if g.n_used = g.n_allocated then g.n_allocated * 2 else g.n_allocated
    (⟨g.array ++ [⟨x, y, w, h⟩], n_allocated⟩, (g.n_used : Int))

/-- The function `transparent`: the alpha byte of pixel `(x, y)` is below 255. -/
def transparent (data : Nat → Nat) (x y stride : Nat) : Bool :=
  decide (data (stride * y + 4 * x + 3) < 255)

/-! ## Row scan (first loop of `load_overlay_image_and_determine_marker_lines`) -/

/-- Local variables of one iteration of the row loop. -/
structure ScanState where
  row : RowInfo
  found_transparent : Bool
deriving DecidableEq, Repr

/-- Body of the leftward loop at column `x`; the flag says whether the loop goes on
(`false` is the `break`). -/
def leftBody (data : Nat → Nat) (y stride x : Nat) (st : ScanState) : ScanState × Bool :=
  let is_transparent := transparent data x y stride
  if !st.found_transparent && is_transparent then
    (⟨⟨x, x + 1⟩, true⟩, true)
  else if is_transparent then
    (⟨⟨x, st.row.transparent_end⟩, st.found_transparent⟩, true)
  else
    (st, false)

/-- The loop `for (int x = center_x; x >= 0; --x)`, entered at column `x`. -/
def leftScan (data : Nat → Nat) (y stride : Nat) : Nat → ScanState → ScanState
  | 0, st => (leftBody data y stride 0 st).1
  | x + 1, st =>
    match leftBody data y stride (x + 1) st with
    | (st1, true) => leftScan data y stride x st1
    | (st1, false) => st1

/-- The loop `for (int x = center_x; x < image_width; ++x)` with `n` iterations left,
that is `n = image_width - x`. -/
def rightScan (data : Nat → Nat) (y stride : Nat) : Nat → Nat → ScanState → ScanState
  | 0, _, st => st
  | n + 1, x, st =>
    if transparent data x y stride then
      ⟨⟨x, x + 1⟩, true⟩
    else
      rightScan data y stride n (x + 1) st

/-- The loop `for (int x = row->transparent_end; x < image_width; ++x)` with `n`
iterations left, that is `n = image_width - x`. -/
def extendEnd (data : Nat → Nat) (y stride : Nat) : Nat → Nat → RowInfo → RowInfo
  | 0, _, row => row
  | n + 1, x, row =>
    if !transparent data x y stride then
      row
    else
      extendEnd data y stride n (x + 1) ⟨row.transparent_start, row.transparent_end + 1⟩

/-- One iteration of the row loop: the `RowInfo` stored in `rows[y]`. -/
def scanRow (img : Image) (y : Nat) : RowInfo :=
  let center_x := img.image_width / 2
  let stride := img.image_width * 4
  let st0 : ScanState := ⟨⟨0, 0⟩, false⟩
  let st1 := leftScan img.data y stride center_x st0
  let st2 :=
    if !st1.found_transparent then
      rightScan img.data y stride (img.image_width - center_x) center_x st1
    else st1
  if !st2.found_transparent then
    st2.row
  else
    extendEnd img.data y stride (img.image_width - st2.row.transparent_end)
      st2.row.transparent_end st2.row

/-- Pixel `(x, y)` of the image is transparent. -/
def Image.isTransparent (img : Image) (x y : Nat) : Bool :=
  transparent img.data x y (img.image_width * 4)

/-! ## Boundary tracking (second loop) -/

/-- The marker array together with `prev_left_index` and `prev_right_index`. -/
structure TrackState where
  markers : MarkerWindowArray
  prev_left_index : Int
  prev_right_index : Int
deriving DecidableEq, Repr

/-- The statement `g_marker_windows.array[index].h++`. -/
def incr_h : List MarkerWindow → Nat → List MarkerWindow
  | [], _ => []
  | m :: ms, 0 => ⟨m.x, m.y, m.w, m.h + 1⟩ :: ms
  | m :: ms, i + 1 => m :: incr_h ms i

/-- The tail of the side loop body: add the 1x1 marker and store its index in the
register of side `i`. -/
def newMarker (y i : Nat) (marker_x : Int) (s : TrackState) : TrackState :=
  let r := add_marker_rectangle s.markers marker_x y 1 1
  if i = 0 then
    ⟨r.1, r.2, s.prev_right_index⟩
  else
    ⟨r.1, s.prev_left_index, r.2⟩

/-- The side loop body once `marker_x` and `prev_index` are chosen. -/
def markSide (y i : Nat) (marker_x prev_index : Int) (s : TrackState) : TrackState :=
  if prev_index ≥ 0 then
    let old_x := (s.markers.array.getD prev_index.toNat default).x
    if marker_x = old_x then
      ⟨⟨incr_h s.markers.array prev_index.toNat, s.markers.n_allocated⟩,
        s.prev_left_index, s.prev_right_index⟩
    else
      let link_x := min marker_x old_x
      let link_w := max marker_x old_x - link_x + 1
      let shrinking := (i = 0 ∧ marker_x > old_x) ∨ (i = 1 ∧ marker_x < old_x)
      let r := add_marker_rectangle s.markers link_x
        (if shrinking then (y : Int) else (y : Int) - 1) link_w 1
      newMarker y i marker_x ⟨r.1, s.prev_left_index, s.prev_right_index⟩
  else
    newMarker y i marker_x s

/-- One iteration of `for (int i = 0; i < 2; ++i)` at row `y`. -/
def sideStep (row : RowInfo) (y i : Nat) (s : TrackState) : TrackState :=
  if i = 0 ∧ row.transparent_start > 0 then
    markSide y i ((row.transparent_start : Int) - 1) s.prev_left_index s
  else if i = 1 ∧ row.transparent_end > row.transparent_start + 1 then
    markSide y i (row.transparent_end : Int) s.prev_right_index s
  else
    s

/-- The top-cap statement that precedes the side loop. -/
def topCap (row : RowInfo) (y : Nat) (s : TrackState) : TrackState :=
  if s.prev_left_index < 0 ∧ y > 0 then
    ⟨(add_marker_rectangle s.markers row.transparent_start ((y : Int) - 1)
        ((row.transparent_end : Int) - (row.transparent_start : Int)) 1).1,
      s.prev_left_index, s.prev_right_index⟩
  else
    s

/-- The branch of the tracking loop for a row without transparent pixels. -/
def emptyRow (rows : Nat → RowInfo) (y : Nat) (s : TrackState) : TrackState :=
  let markers :=
    if y > 0 ∧ (rows (y - 1)).transparent_start < (rows (y - 1)).transparent_end then
      (add_marker_rectangle s.markers (rows (y - 1)).transparent_start y
        (((rows (y - 1)).transparent_end : Int) - ((rows (y - 1)).transparent_start : Int)) 1).1
    else
      s.markers
  ⟨markers, -1, -1⟩

/-- One iteration of the tracking loop `for (int y = 0; y < image_height; ++y)`. -/
def rowStep (rows : Nat → RowInfo) (y : Nat) (s : TrackState) : TrackState :=
  if (rows y).transparent_start ≥ (rows y).transparent_end then
    emptyRow rows y s
  else
    sideStep (rows y) y 1 (sideStep (rows y) y 0 (topCap (rows y) y s))

/-- State before the tracking loop. -/
def initState : TrackState := ⟨⟨[], 1⟩, -1, -1⟩

/-- State of the tracking loop after the rows `0 .. n-1`. -/
def trackRows (rows : Nat → RowInfo) : Nat → TrackState
  | 0 => initState
  | n + 1 => rowStep rows n (trackRows rows n)

/-- The marker array left by `load_overlay_image_and_determine_marker_lines`. -/
def load_overlay_image_and_determine_marker_lines (img : Image) : MarkerWindowArray :=
  (trackRows (scanRow img) img.image_height).markers

/-! ## Test images -/

/-- Image of the given size whose pixel `(x, y)` has alpha 0 when `t x y` and 255 otherwise. -/
def mkImage (W H : Nat) (t : Nat → Nat → Bool) : Image :=
  ⟨W, H, fun k =>
    if k % 4 = 3 ∧ t ((k % (W * 4)) / 4) (k / (W * 4)) then 0 else 255⟩

/-- The 5x5 image with an opaque border and a transparent 3x3 centre. -/
def centreBlock5 : Image :=
  mkImage 5 5 fun x y => decide (1 ≤ x ∧ x ≤ 3 ∧ 1 ≤ y ∧ y ≤ 3)

/-- Image whose transparent pixels are the columns `[c1, c2)` of every row. -/
def columnBand (W H c1 c2 : Nat) : Image :=
  mkImage W H fun x _ => decide (c1 ≤ x ∧ x < c2)

/-- The 4x2 image whose columns 0, 1 and 2 are transparent in both rows. -/
def leftEdgeBand : Image := columnBand 4 2 0 3

/-- A tracking state with one open left marker in column 10 (created in row 0). -/
def leftAt10 : TrackState := ⟨⟨[⟨10, 0, 1, 1⟩], 1⟩, 0, -1⟩

/-! ## Specification vocabulary -/

/-- The interval `[start, end)` of `r` is a non-empty maximal run of transparent pixels
of row `y`: inside the image, transparent throughout, and bounded on each side by an
opaque pixel or by the edge of the row. -/
def IsMaximalRun (img : Image) (y : Nat) (r : RowInfo) : Prop :=
  r.transparent_start < r.transparent_end ∧
  r.transparent_end ≤ img.image_width ∧
  (∀ k, r.transparent_start ≤ k → k < r.transparent_end → img.isTransparent k y = true) ∧
  (r.transparent_start = 0 ∨ img.isTransparent (r.transparent_start - 1) y = false) ∧
  (r.transparent_end = img.image_width ∨ img.isTransparent r.transparent_end y = false)

/-- The 6x3 image whose transparent columns are `[2, 5)` in row 0, `[0, 5)` in row 1 and
`[1, 5)` in row 2. -/
def leftEdgeStep : Image :=
  mkImage 6 3 fun x y =>
    decide ((y = 0 ∧ 2 ≤ x ∧ x < 5) ∨ (y = 1 ∧ x < 5) ∨ (y = 2 ∧ 1 ≤ x ∧ x < 5))

/-- The 10x1 image whose columns 1 and 2 are transparent; its centre column is 5. -/
def leftOfCentreBand : Image := columnBand 10 1 1 3

/-! ## Vocabulary for the tracking invariants -/

/-- The row interval is non-empty, so the row takes the side-loop branch. -/
def RowInfo.nonEmpty (row : RowInfo) : Prop :=
  row.transparent_start < row.transparent_end

/-- Candidate column of the left side in the most recent of the rows `0 .. n-1` in which
the left side had a valid candidate. -/
def lastLeftCandidate (rows : Nat → RowInfo) : Nat → Option Int
  | 0 => none
  | n + 1 =>
    if (rows n).transparent_start < (rows n).transparent_end ∧ (rows n).transparent_start > 0
    then some (((rows n).transparent_start : Int) - 1)
    else lastLeftCandidate rows n

/-- Candidate column of the right side in the most recent of the rows `0 .. n-1` in which
the right side had a valid candidate. -/
def lastRightCandidate (rows : Nat → RowInfo) : Nat → Option Int
  | 0 => none
  | n + 1 =>
    if (rows n).transparent_start < (rows n).transparent_end ∧
        (rows n).transparent_end > (rows n).transparent_start + 1
    then some ((rows n).transparent_end : Int)
    else lastRightCandidate rows n

/-- The register `reg` is absent, or it is the index of a rectangle of `l` that is one
pixel wide and whose column is `x`. -/
def OpenRegister (l : List MarkerWindow) (reg : Int) (x : Option Int) : Prop :=
  reg = -1 ∨ ∃ (idx : Nat) (m : MarkerWindow),
    reg = (idx : Int) ∧ l[idx]? = some m ∧ m.w = 1 ∧ some m.x = x

/-- Side `i` of a row with interval `row` enters the link branch from state `s`: it has a
valid candidate, its register is present and the rectangle it refers to is in another
column.  This is the condition under which `assert(y > 0)` is evaluated. -/
def reachesLink (row : RowInfo) (i : Nat) (s : TrackState) : Prop :=
  (i = 0 ∧ row.transparent_start > 0 ∧ s.prev_left_index ≥ 0 ∧
    (s.markers.array.getD s.prev_left_index.toNat default).x
      ≠ (row.transparent_start : Int) - 1) ∨
  (i = 1 ∧ row.transparent_end > row.transparent_start + 1 ∧ s.prev_right_index ≥ 0 ∧
    (s.markers.array.getD s.prev_right_index.toNat default).x ≠ (row.transparent_end : Int))

/-- Geometry of a rectangle produced for an image of width `W` after `n` rows. -/
def Geo (W n : Nat) (m : MarkerWindow) : Prop :=
  1 ≤ m.w ∧ 1 ≤ m.h ∧ (m.w = 1 ∨ m.h = 1) ∧ 0 ≤ m.x ∧ m.x + m.w ≤ (W : Int) + 1 ∧
  0 ≤ m.y ∧ m.y + m.h ≤ (n : Int)

/-- The list `l2` keeps every rectangle of `l1` at its index with the same `x`, `y` and `w`
and with `h` unchanged or incremented by exactly 1, and is at least as long. -/
def GrowsFrom (l1 l2 : List MarkerWindow) : Prop :=
  l1.length ≤ l2.length ∧
  ∀ j : Nat, j < l1.length → ∃ m1 m2 : MarkerWindow, l1[j]? = some m1 ∧ l2[j]? = some m2 ∧
    m2.x = m1.x ∧ m2.y = m1.y ∧ m2.w = m1.w ∧ (m2.h = m1.h ∨ m2.h = m1.h + 1)

/-- Every rectangle of `l1` is kept at its index in `l2` with the same `x`, `y` and `w`;
its `h` is unchanged, or incremented by exactly 1 when its column is `c`. -/
def GrowsAt (c : Option Int) (l1 l2 : List MarkerWindow) : Prop :=
  ∀ (j : Nat) (m1 : MarkerWindow), l1[j]? = some m1 → ∃ m2 : MarkerWindow, l2[j]? = some m2 ∧
    m2.x = m1.x ∧ m2.y = m1.y ∧ m2.w = m1.w ∧
    (m2.h = m1.h ∨ (m2.h = m1.h + 1 ∧ some m1.x = c))

/-- The register `reg` is absent, or it is the index of a rectangle of `l` that is one
pixel wide, lies in column `x` and ends at or above row `bound`. -/
def RegAt (l : List MarkerWindow) (reg : Int) (x : Option Int) (bound : Nat) : Prop :=
  reg = -1 ∨ ∃ (idx : Nat) (m : MarkerWindow),
    reg = (idx : Int) ∧ l[idx]? = some m ∧ m.w = 1 ∧ some m.x = x ∧
    m.y + m.h ≤ (bound : Int)

/-- Invariant inside the processing of row `n`: the geometry of every rectangle, the two
registers with the column and the lower end of their rectangles, and their distinctness. -/
def MidInv (W n : Nat) (s : TrackState) (lx rx : Option Int) (lb rb : Nat) : Prop :=
  (∀ m ∈ s.markers.array, Geo W (n + 1) m) ∧
  RegAt s.markers.array s.prev_left_index lx lb ∧
  RegAt s.markers.array s.prev_right_index rx rb ∧
  (s.prev_left_index ≥ 0 → s.prev_right_index ≥ 0 → s.prev_left_index ≠ s.prev_right_index)

/-- Invariant at the start of row `n` of the tracking loop. -/
def TrackInv (W : Nat) (rows : Nat → RowInfo) (n : Nat) (s : TrackState) : Prop :=
  (∀ m ∈ s.markers.array, Geo W n m) ∧
  OpenRegister s.markers.array s.prev_left_index (lastLeftCandidate rows n) ∧
  OpenRegister s.markers.array s.prev_right_index (lastRightCandidate rows n) ∧
  (s.prev_left_index ≥ 0 → s.prev_right_index ≥ 0 → s.prev_left_index ≠ s.prev_right_index)

/-! ## Countdown clock -/

/-- The four `SYSTEMTIME` fields (each a 16-bit `WORD`) that the countdown code reads or
writes; the date fields are never read. -/
structure SYSTEMTIME where
  wHour : Nat
  wMinute : Nat
  wSecond : Nat
  wMilliseconds : Nat
deriving DecidableEq

/-- The function `set_expiry_time`; `now` is the reading of `GetLocalTime`.  Stores into
a `WORD` are reduced modulo 65536.  The global `g_countdown_minutes` is 0 or a value that
`parse_command_line` accepted, so it is never negative. -/
def set_expiry_time (now : SYSTEMTIME) (g_countdown_minutes : Nat) : SYSTEMTIME :=
  let wMinute := (now.wMinute + g_countdown_minutes) % 65536
  let wHour := (now.wHour + wMinute / 60) % 65536
  ⟨wHour, wMinute % 60, now.wSecond, now.wMilliseconds⟩

/-- The function `calculate_time_until_expiry`; `current_time` is the reading of
`GetLocalTime`.  Returns `remaining` and `still_running`.  After the clamp `delta_ms` is
not negative and is kept as a natural number; the `WORD` casts are reductions modulo
65536.  The products of a `WORD` with a constant are taken without overflow, which is the
case for every hour count below 597. -/
def calculate_time_until_expiry (g_expiry_time current_time : SYSTEMTIME) :
    SYSTEMTIME × Bool :=
  let delta_ms : Int :=
    ((((g_expiry_time.wHour : Int) - (current_time.wHour : Int))
      * 60 + (g_expiry_time.wMinute : Int) - (current_time.wMinute : Int))
      * 60 + (g_expiry_time.wSecond : Int) - (current_time.wSecond : Int))
      * 1000 + (g_expiry_time.wMilliseconds : Int) - (current_time.wMilliseconds : Int)
  let still_running := decide (¬ delta_ms < 0)
  let d0 : Nat := if delta_ms < 0 then 0 else delta_ms.toNat
  let wHour := d0 / (60 * 60 * 1000) % 65536
  let d1 := d0 - wHour * (60 * 60 * 1000)
  let wMinute := d1 / (60 * 1000) % 65536
  let d2 := d1 - wMinute * (60 * 1000)
  let wSecond := d2 / 1000 % 65536
  let d3 := d2 - wSecond * 1000
  (⟨wHour, wMinute, wSecond, d3 % 65536⟩, still_running)

/-- Milliseconds denoted by the four fields. -/
def SYSTEMTIME.totalMs (t : SYSTEMTIME) : Nat :=
  ((t.wHour * 60 + t.wMinute) * 60 + t.wSecond) * 1000 + t.wMilliseconds

/-- The local time of day `e` milliseconds after `t0`, wrapping at midnight. -/
def timeOfDayAfter (t0 : SYSTEMTIME) (e : Nat) : SYSTEMTIME :=
  let ms := (t0.totalMs + e) % (24 * 60 * 60 * 1000)
  ⟨ms / (60 * 60 * 1000), ms / (60 * 1000) % 60, ms / 1000 % 60, ms % 1000⟩

/-! ## Command line -/

/-- The NUL character. -/
def NUL : Char := Char.ofNat 0

/-- The double-quote character. -/
def DQUOTE : Char := Char.ofNat 34

/-- The C library function `isspace` in the "C" locale: space, and the control
characters tab, line feed, vertical tab, form feed and carriage return. -/
def isspace (ch : Char) : Bool :=
  decide (ch.toNat = 32 ∨ (9 ≤ ch.toNat ∧ ch.toNat ≤ 13))

/-- The loop `while (**cmdline && isspace(**cmdline)) (*cmdline)++`.  A command line is
the list of the characters in front of its terminating NUL, so the character read at
the end of the list is NUL. -/
def skipSpace : List Char → List Char
  | [] => []
  | ch :: rest => if ch ≠ NUL ∧ isspace ch = true then skipSpace rest else ch :: rest

/-- The loop `while (true)` of `consume_and_dup_command_line_argument`: from the command
line, `in_quotes` and the characters written to `arg` so far to the final contents of
`arg` and the command line left over. -/
def copyArg : List Char → Bool → List Char → List Char × List Char
  | [], _, arg => (arg, [])
  | ch :: rest, in_quotes, arg =>
    if ch = DQUOTE then
      copyArg rest (!in_quotes) arg
    else if ch ≠ NUL ∧ isspace ch = true then
      if in_quotes then copyArg rest in_quotes (arg ++ [ch]) else (arg, rest)
    else if ch = NUL then
      (arg, ch :: rest)
    else
      copyArg rest in_quotes (arg ++ [ch])

/-- The function `consume_and_dup_command_line_argument`: the returned string (`none` is
the null pointer) and the advanced command line. -/
def consume_and_dup_command_line_argument (cmdline : List Char) :
    Option (List Char) × List Char :=
  let cmdline1 := skipSpace cmdline
  if cmdline1.headD NUL = NUL then
    (none, cmdline1)
  else
    let r := copyArg cmdline1 false []
    (some r.1, r.2)

/-- The C library function `strlen` on a command line. -/
def strlen : List Char → Nat
  | [] => 0
  | ch :: rest => if ch = NUL then 0 else strlen rest + 1

/-- Number of leading characters of the text that belong to the argument: up to the
first whitespace character outside double quotes, or the whole text. -/
def argExtent : Bool → List Char → Nat
  | _, [] => 0
  | in_quotes, ch :: rest =>
    if ch = DQUOTE then argExtent (!in_quotes) rest + 1
    else if isspace ch = true ∧ in_quotes = false then 0
    else argExtent in_quotes rest + 1

/-- The argument as the documentation describes it: skip the leading whitespace; if
nothing remains there is no argument; otherwise take the text up to the first
whitespace character outside double quotes and remove every double quote. -/
def documentedArgument (cmdline : List Char) : Option (List Char) :=
  let text := cmdline.dropWhile isspace
  if text = [] then none
  else some (((text.take (argExtent false text))).filter fun ch => decide (ch ≠ DQUOTE))

/-- The backslash character. -/
def BACKSLASH : Char := Char.ofNat 92

/-- The argument `--background=example directory\back ground.png` of the documentation. -/
def backgroundArgument : List Char :=
  "--background=example directory".toList ++ [BACKSLASH] ++ "back ground.png".toList

/-- First documented spelling: the value in one pair of quotes. -/
def spelling1 : List Char :=
  "--background=".toList ++ [DQUOTE] ++ "example directory".toList ++ [BACKSLASH] ++
    "back ground.png".toList ++ [DQUOTE]

/-- Second documented spelling: directory and file name quoted separately. -/
def spelling2 : List Char :=
  "--background=".toList ++ [DQUOTE] ++ "example directory".toList ++ [DQUOTE] ++
    [BACKSLASH] ++ [DQUOTE] ++ "back ground.png".toList ++ [DQUOTE]

/-- Third documented spelling: the whole argument in quotes. -/
def spelling3 : List Char :=
  [DQUOTE] ++ "--background=example directory".toList ++ [BACKSLASH] ++
    "back ground.png".toList ++ [DQUOTE]

/-! ## Row scan: loop lemmas -/

theorem leftScan_stops (data : Nat → Nat) (y stride x : Nat) (st : ScanState)
    (hx : transparent data x y stride = false) :
    leftScan data y stride x st = st := by
  cases x <;> simp [leftScan, leftBody, hx]

theorem leftScan_found (data : Nat → Nat) (y stride : Nat) :
    ∀ (x : Nat) (st : ScanState), st.found_transparent = true →
      st.row.transparent_start = x + 1 →
      (leftScan data y stride x st).found_transparent = true ∧
      (leftScan data y stride x st).row.transparent_end = st.row.transparent_end ∧
      (leftScan data y stride x st).row.transparent_start ≤ x + 1 ∧
      (∀ k, (leftScan data y stride x st).row.transparent_start ≤ k → k ≤ x →
        transparent data k y stride = true) ∧
      ((leftScan data y stride x st).row.transparent_start = 0 ∨
        transparent data ((leftScan data y stride x st).row.transparent_start - 1) y stride
          = false) := by
  intro x
  induction x with
  | zero =>
    intro st hf hs
    by_cases ht : transparent data 0 y stride = true
    · simp [leftScan, leftBody, hf, ht]
    · simp only [Bool.not_eq_true] at ht
      rw [leftScan_stops data y stride 0 st ht]
      refine ⟨hf, rfl, by omega, ?_, ?_⟩
      · intro k h1 h2; omega
      · right; rw [hs]; simpa using ht
  | succ x ih =>
    intro st hf hs
    by_cases ht : transparent data (x + 1) y stride = true
    · have hstep : leftScan data y stride (x + 1) st
          = leftScan data y stride x ⟨⟨x + 1, st.row.transparent_end⟩, true⟩ := by
        simp [leftScan, leftBody, hf, ht]
      rw [hstep]
      obtain ⟨h1, h2, h3, h4, h5⟩ :=
        ih ⟨⟨x + 1, st.row.transparent_end⟩, true⟩ rfl rfl
      refine ⟨h1, h2, by omega, ?_, h5⟩
      intro k hk1 hk2
      by_cases hk : k ≤ x
      · exact h4 k hk1 hk
      · have : k = x + 1 := by omega
        rw [this]; exact ht
    · simp only [Bool.not_eq_true] at ht
      rw [leftScan_stops data y stride (x + 1) st ht]
      refine ⟨hf, rfl, by omega, ?_, ?_⟩
      · intro k h1 h2; omega
      · right; rw [hs]; simpa using ht

theorem leftScan_centre (data : Nat → Nat) (y stride c : Nat)
    (hc : transparent data c y stride = true) :
    (leftScan data y stride c ⟨⟨0, 0⟩, false⟩).found_transparent = true ∧
    (leftScan data y stride c ⟨⟨0, 0⟩, false⟩).row.transparent_end = c + 1 ∧
    (leftScan data y stride c ⟨⟨0, 0⟩, false⟩).row.transparent_start ≤ c ∧
    (∀ k, (leftScan data y stride c ⟨⟨0, 0⟩, false⟩).row.transparent_start ≤ k → k ≤ c →
      transparent data k y stride = true) ∧
    ((leftScan data y stride c ⟨⟨0, 0⟩, false⟩).row.transparent_start = 0 ∨
      transparent data ((leftScan data y stride c ⟨⟨0, 0⟩, false⟩).row.transparent_start - 1)
        y stride = false) := by
  cases c with
  | zero =>
    simp [leftScan, leftBody, hc]
  | succ x =>
    have hstep : leftScan data y stride (x + 1) ⟨⟨0, 0⟩, false⟩
        = leftScan data y stride x ⟨⟨x + 1, x + 1 + 1⟩, true⟩ := by
      simp [leftScan, leftBody, hc]
    rw [hstep]
    obtain ⟨h1, h2, h3, h4, h5⟩ :=
      leftScan_found data y stride x ⟨⟨x + 1, x + 1 + 1⟩, true⟩ rfl rfl
    refine ⟨h1, h2, h3, ?_, h5⟩
    intro k hk1 hk2
    by_cases hk : k ≤ x
    · exact h4 k hk1 hk
    · have : k = x + 1 := by omega
      rw [this]; exact hc

theorem rightScan_spec (data : Nat → Nat) (y stride : Nat) (st : ScanState) :
    ∀ (n x : Nat),
      (rightScan data y stride n x st = st ∧
        ∀ k, x ≤ k → k < x + n → transparent data k y stride = false) ∨
      (∃ k, x ≤ k ∧ k < x + n ∧ transparent data k y stride = true ∧
        (∀ j, x ≤ j → j < k → transparent data j y stride = false) ∧
        rightScan data y stride n x st = ⟨⟨k, k + 1⟩, true⟩) := by
  intro n
  induction n with
  | zero =>
    intro x
    left
    exact ⟨rfl, fun k h1 h2 => by omega⟩
  | succ n ih =>
    intro x
    by_cases ht : transparent data x y stride = true
    · right
      refine ⟨x, le_refl x, by omega, ht, fun j h1 h2 => by omega, ?_⟩
      simp [rightScan, ht]
    · simp only [Bool.not_eq_true] at ht
      have hstep : rightScan data y stride (n + 1) x st
          = rightScan data y stride n (x + 1) st := by
        simp [rightScan, ht]
      rw [hstep]
      rcases ih (x + 1) with ⟨h1, h2⟩ | ⟨k, h1, h2, h3, h4, h5⟩
      · left
        refine ⟨h1, ?_⟩
        intro k hk1 hk2
        by_cases hk : k = x
        · rw [hk]; exact ht
        · exact h2 k (by omega) (by omega)
      · right
        refine ⟨k, by omega, by omega, h3, ?_, h5⟩
        intro j hj1 hj2
        by_cases hj : j = x
        · rw [hj]; exact ht
        · exact h4 j (by omega) hj2

theorem extendEnd_spec (data : Nat → Nat) (y stride : Nat) :
    ∀ (n x : Nat) (row : RowInfo), row.transparent_end = x →
      (extendEnd data y stride n x row).transparent_start = row.transparent_start ∧
      x ≤ (extendEnd data y stride n x row).transparent_end ∧
      (extendEnd data y stride n x row).transparent_end ≤ x + n ∧
      (∀ k, x ≤ k → k < (extendEnd data y stride n x row).transparent_end →
        transparent data k y stride = true) ∧
      ((extendEnd data y stride n x row).transparent_end = x + n ∨
        transparent data (extendEnd data y stride n x row).transparent_end y stride
          = false) := by
  intro n
  induction n with
  | zero =>
    intro x row he
    have h0 : extendEnd data y stride 0 x row = row := rfl
    rw [h0]
    refine ⟨rfl, by omega, by omega, fun k h1 h2 => by omega, Or.inl (by omega)⟩
  | succ n ih =>
    intro x row he
    by_cases ht : transparent data x y stride = true
    · have hstep : extendEnd data y stride (n + 1) x row
          = extendEnd data y stride n (x + 1)
              ⟨row.transparent_start, row.transparent_end + 1⟩ := by
        simp [extendEnd, ht]
      rw [hstep]
      obtain ⟨h1, h2, h3, h4, h5⟩ :=
        ih (x + 1) ⟨row.transparent_start, row.transparent_end + 1⟩ (by simp [he])
      refine ⟨h1, by omega, by omega, ?_, ?_⟩
      · intro k hk1 hk2
        by_cases hk : k = x
        · rw [hk]; exact ht
        · exact h4 k (by omega) hk2
      · rcases h5 with h5 | h5
        · left; omega
        · right; exact h5
    · simp only [Bool.not_eq_true] at ht
      have hstep : extendEnd data y stride (n + 1) x row = row := by
        simp [extendEnd, ht]
      rw [hstep]
      refine ⟨rfl, by omega, by omega, fun k h1 h2 => by omega, Or.inr ?_⟩
      rw [he]; exact ht

/-! ## Row scan: the three cases of one row -/

theorem scanRow_centre (img : Image) (y : Nat) (hW : 1 ≤ img.image_width)
    (hc : img.isTransparent (img.image_width / 2) y = true) :
    (scanRow img y).transparent_start ≤ img.image_width / 2 ∧
    img.image_width / 2 < (scanRow img y).transparent_end ∧
    IsMaximalRun img y (scanRow img y) := by
  have hlt : img.image_width / 2 < img.image_width := Nat.div_lt_self (by omega) (by omega)
  obtain ⟨h1, h2, h3, h4, h5⟩ :=
    leftScan_centre img.data y (img.image_width * 4) (img.image_width / 2) hc
  have hrow : scanRow img y
      = extendEnd img.data y (img.image_width * 4)
          (img.image_width - (img.image_width / 2 + 1)) (img.image_width / 2 + 1)
          (leftScan img.data y (img.image_width * 4) (img.image_width / 2)
            ⟨⟨0, 0⟩, false⟩).row := by
    simp [scanRow, h1, h2]
  obtain ⟨e1, e2, e3, e4, e5⟩ :=
    extendEnd_spec img.data y (img.image_width * 4)
      (img.image_width - (img.image_width / 2 + 1)) (img.image_width / 2 + 1)
      (leftScan img.data y (img.image_width * 4) (img.image_width / 2) ⟨⟨0, 0⟩, false⟩).row h2
  rw [← hrow] at e1 e2 e3 e4 e5
  refine ⟨by omega, by omega, by omega, by omega, ?_, ?_, ?_⟩
  · intro k hk1 hk2
    by_cases hk : k ≤ img.image_width / 2
    · exact h4 k (by omega) hk
    · exact e4 k (by omega) hk2
  · rw [e1]; exact h5
  · rcases e5 with e5 | e5
    · left; omega
    · right; exact e5

theorem scanRow_right (img : Image) (y : Nat)
    (hc : img.isTransparent (img.image_width / 2) y = false)
    (hx : ∃ x, img.image_width / 2 < x ∧ x < img.image_width ∧ img.isTransparent x y = true) :
    img.image_width / 2 < (scanRow img y).transparent_start ∧
    img.isTransparent (scanRow img y).transparent_start y = true ∧
    (∀ x, img.image_width / 2 < x → x < (scanRow img y).transparent_start →
      img.isTransparent x y = false) ∧
    IsMaximalRun img y (scanRow img y) := by
  obtain ⟨x0, hx1, hx2, hx3⟩ := hx
  have hL := leftScan_stops img.data y (img.image_width * 4) (img.image_width / 2)
    ⟨⟨0, 0⟩, false⟩ hc
  rcases rightScan_spec img.data y (img.image_width * 4) ⟨⟨0, 0⟩, false⟩
      (img.image_width - img.image_width / 2) (img.image_width / 2) with
    ⟨_, hnone⟩ | ⟨k, hk1, hk2, hk3, hk4, hk5⟩
  · have := hnone x0 (by omega) (by omega)
    rw [Image.isTransparent] at hx3
    rw [this] at hx3
    exact absurd hx3 (by simp)
  · have hkc : k ≠ img.image_width / 2 := by
      intro h
      rw [h] at hk3
      rw [Image.isTransparent] at hc
      rw [hc] at hk3
      exact absurd hk3 (by simp)
    have hrow : scanRow img y
        = extendEnd img.data y (img.image_width * 4) (img.image_width - (k + 1)) (k + 1)
            ⟨k, k + 1⟩ := by
      simp [scanRow, hL, hk5]
    obtain ⟨e1, e2, e3, e4, e5⟩ :=
      extendEnd_spec img.data y (img.image_width * 4) (img.image_width - (k + 1)) (k + 1)
        ⟨k, k + 1⟩ rfl
    rw [← hrow] at e1 e2 e3 e4 e5
    simp only at e1
    refine ⟨by omega, by rw [e1]; exact hk3, ?_, by omega, by omega, ?_, ?_, ?_⟩
    · intro x h1 h2
      exact hk4 x (by omega) (by omega)
    · intro j hj1 hj2
      by_cases hj : j = k
      · rw [hj]; exact hk3
      · exact e4 j (by omega) hj2
    · right
      rw [e1]
      by_cases hk0 : k - 1 = img.image_width / 2
      · rw [hk0]; exact hc
      · exact hk4 (k - 1) (by omega) (by omega)
    · rcases e5 with e5 | e5
      · left; omega
      · right; exact e5

theorem scanRow_none (img : Image) (y : Nat)
    (hc : img.isTransparent (img.image_width / 2) y = false)
    (hx : ∀ x, img.image_width / 2 < x → x < img.image_width →
      img.isTransparent x y = false) :
    scanRow img y = ⟨0, 0⟩ := by
  have hL := leftScan_stops img.data y (img.image_width * 4) (img.image_width / 2)
    ⟨⟨0, 0⟩, false⟩ hc
  rcases rightScan_spec img.data y (img.image_width * 4) ⟨⟨0, 0⟩, false⟩
      (img.image_width - img.image_width / 2) (img.image_width / 2) with
    ⟨hR, _⟩ | ⟨k, hk1, hk2, hk3, hk4, hk5⟩
  · simp [scanRow, hL, hR]
  · by_cases hkc : k = img.image_width / 2
    · rw [hkc] at hk3
      rw [Image.isTransparent] at hc
      rw [hc] at hk3
      exact absurd hk3 (by simp)
    · have := hx k (by omega) (by omega)
      rw [Image.isTransparent] at this
      rw [this] at hk3
      exact absurd hk3 (by simp)

/-! ## Claims about the row scan -/

/-- C1: for every image of width at least 1 and every row `y`, with `c = W/2`: if pixel
`(c, y)` is transparent the row scan returns the maximal run of transparent pixels that
contains column `c`; otherwise, if some pixel at a column right of `c` is transparent, it
returns the maximal transparent run starting at the smallest such column; otherwise it
returns `(0, 0)`.  A maximal run satisfies `start < end <= W`, is transparent throughout,
and is bounded on each side by an opaque pixel or the edge of the row. -/
theorem scanRow_spec (img : Image) (y : Nat) (hW : 1 ≤ img.image_width) :
    (img.isTransparent (img.image_width / 2) y = true →
      (scanRow img y).transparent_start ≤ img.image_width / 2 ∧
      img.image_width / 2 < (scanRow img y).transparent_end ∧
      IsMaximalRun img y (scanRow img y)) ∧
    (img.isTransparent (img.image_width / 2) y = false →
      (∃ x, img.image_width / 2 < x ∧ x < img.image_width ∧ img.isTransparent x y = true) →
      img.image_width / 2 < (scanRow img y).transparent_start ∧
      img.isTransparent (scanRow img y).transparent_start y = true ∧
      (∀ x, img.image_width / 2 < x → x < (scanRow img y).transparent_start →
        img.isTransparent x y = false) ∧
      IsMaximalRun img y (scanRow img y)) ∧
    (img.isTransparent (img.image_width / 2) y = false →
      (∀ x, img.image_width / 2 < x → x < img.image_width →
        img.isTransparent x y = false) →
      scanRow img y = ⟨0, 0⟩) :=
  ⟨scanRow_centre img y hW, scanRow_right img y, scanRow_none img y⟩

/-- Witness of C1 on the 5x5 centre-block image at row 1. -/
theorem scanRow_spec_witness :
    1 ≤ centreBlock5.image_width ∧
    centreBlock5.isTransparent (centreBlock5.image_width / 2) 1 = true ∧
    (scanRow centreBlock5 1).transparent_start ≤ centreBlock5.image_width / 2 ∧
    centreBlock5.image_width / 2 < (scanRow centreBlock5 1).transparent_end ∧
    IsMaximalRun centreBlock5 1 (scanRow centreBlock5 1) :=
  ⟨by decide, by decide, (scanRow_spec centreBlock5 1 (by decide)).1 (by decide)⟩

/-! ## Marker array lemmas -/

theorem incr_h_length : ∀ (l : List MarkerWindow) (i : Nat), (incr_h l i).length = l.length
  | [], _ => rfl
  | _ :: _, 0 => rfl
  | m :: ms, i + 1 => by simp [incr_h, incr_h_length ms i]

theorem incr_h_get_ne : ∀ (l : List MarkerWindow) (i j : Nat), j ≠ i → (incr_h l i)[j]? = l[j]?
  | [], _, _, _ => rfl
  | _ :: _, 0, j, h => by
    cases j with
    | zero => exact absurd rfl h
    | succ j => simp [incr_h]
  | m :: ms, i + 1, j, h => by
    cases j with
    | zero => simp [incr_h]
    | succ j => simpa [incr_h] using incr_h_get_ne ms i j (by omega)

theorem incr_h_get_eq : ∀ (l : List MarkerWindow) (i : Nat) (m : MarkerWindow),
    l[i]? = some m → (incr_h l i)[i]? = some ⟨m.x, m.y, m.w, m.h + 1⟩
  | [], _, _, h => by simp at h
  | a :: _, 0, m, h => by
    simp at h
    simp [incr_h, h]
  | a :: ms, i + 1, m, h => by
    simp at h
    simpa [incr_h] using incr_h_get_eq ms i m h

theorem add_marker_rectangle_array (g : MarkerWindowArray) (x y w h : Int)
    (hw : 0 < w) (hh : 0 < h) :
    (add_marker_rectangle g x y w h).1.array = g.array ++ [⟨x, y, w, h⟩] ∧
    (add_marker_rectangle g x y w h).2 = (g.n_used : Int) := by
  have hcond : ¬ (w ≤ 0 ∨ h ≤ 0) := by omega
  simp [add_marker_rectangle, hcond]

/-! ## Side loop lemmas -/

theorem newMarker_spec (y i : Nat) (x : Int) (s : TrackState) :
    (newMarker y i x s).markers.array = s.markers.array ++ [⟨x, y, 1, 1⟩] ∧
    (newMarker y i x s).prev_left_index =
      (if i = 0 then (s.markers.n_used : Int) else s.prev_left_index) ∧
    (newMarker y i x s).prev_right_index =
      (if i = 0 then s.prev_right_index else (s.markers.n_used : Int)) := by
  obtain ⟨h1, h2⟩ := add_marker_rectangle_array s.markers x y 1 1 (by decide) (by decide)
  by_cases hi : i = 0
  · simp [newMarker, hi, h1, h2]
  · simp [newMarker, hi, h1, h2]

theorem markSide_link (y i : Nat) (s : TrackState) (cand old_x : Int) (idx : Nat)
    (hold : (s.markers.array.getD idx default).x = old_x) (hne : old_x ≠ cand) :
    (markSide y i cand (idx : Int) s).markers.array =
      s.markers.array ++
        [⟨min cand old_x,
          if (i = 0 ∧ cand > old_x) ∨ (i = 1 ∧ cand < old_x) then (y : Int) else (y : Int) - 1,
          |cand - old_x| + 1, 1⟩,
         ⟨cand, y, 1, 1⟩] ∧
    (markSide y i cand (idx : Int) s).prev_left_index =
      (if i = 0 then (s.markers.n_used : Int) + 1 else s.prev_left_index) ∧
    (markSide y i cand (idx : Int) s).prev_right_index =
      (if i = 0 then s.prev_right_index else (s.markers.n_used : Int) + 1) := by
  have hne2 : ¬ cand = old_x := fun h => hne h.symm
  have hw : 0 < max cand old_x - min cand old_x + 1 := by omega
  have habs : max cand old_x - min cand old_x = |cand - old_x| := max_sub_min_eq_abs' _ _
  obtain ⟨a1, _⟩ := add_marker_rectangle_array s.markers (min cand old_x)
    (if (i = 0 ∧ cand > old_x) ∨ (i = 1 ∧ cand < old_x) then (y : Int) else (y : Int) - 1)
    (max cand old_x - min cand old_x + 1) 1 hw (by decide)
  have hstep : markSide y i cand (idx : Int) s
      = newMarker y i cand
          ⟨(add_marker_rectangle s.markers (min cand old_x)
            (if (i = 0 ∧ cand > old_x) ∨ (i = 1 ∧ cand < old_x)
              then (y : Int) else (y : Int) - 1)
            (max cand old_x - min cand old_x + 1) 1).1,
            s.prev_left_index, s.prev_right_index⟩ := by
    simp only [markSide, Int.toNat_ofNat, ge_iff_le, Int.ofNat_zero_le, ↓reduceIte, hold, hne2]
  rw [hstep]
  obtain ⟨n1, n2, n3⟩ := newMarker_spec y i cand
    ⟨(add_marker_rectangle s.markers (min cand old_x)
      (if (i = 0 ∧ cand > old_x) ∨ (i = 1 ∧ cand < old_x) then (y : Int) else (y : Int) - 1)
      (max cand old_x - min cand old_x + 1) 1).1,
      s.prev_left_index, s.prev_right_index⟩
  rw [n1, n2, n3]
  simp only [MarkerWindowArray.n_used, a1, List.append_assoc, List.singleton_append,
    List.length_append, List.length_singleton, Nat.cast_add, Nat.cast_one]
  rw [habs]
  refine ⟨?_, ?_, ?_⟩ <;> first | rfl | trivial

theorem markSide_extend (y i : Nat) (s : TrackState) (cand : Int) (idx : Nat)
    (hold : (s.markers.array.getD idx default).x = cand) :
    markSide y i cand (idx : Int) s =
      ⟨⟨incr_h s.markers.array idx, s.markers.n_allocated⟩,
        s.prev_left_index, s.prev_right_index⟩ := by
  simp only [markSide, Int.toNat_ofNat, ge_iff_le, Int.ofNat_zero_le, ↓reduceIte, hold]

theorem markSide_absent (y i : Nat) (s : TrackState) (cand prev_index : Int)
    (h : prev_index < 0) :
    markSide y i cand prev_index s = newMarker y i cand s := by
  have h2 : ¬ prev_index ≥ 0 := by omega
  simp only [markSide, h2, ↓reduceIte]

theorem getD_of_getElem? (l : List MarkerWindow) (idx : Nat) (m : MarkerWindow)
    (h : l[idx]? = some m) : l.getD idx default = m := by
  rw [List.getD_eq_getElem?_getD, h, Option.getD_some]

theorem markSide_left_keeps_right (y : Nat) (cand prev_index : Int) (s : TrackState) :
    (markSide y 0 cand prev_index s).prev_right_index = s.prev_right_index := by
  by_cases hp : prev_index < 0
  · rw [markSide_absent y 0 s cand prev_index hp]
    simpa using (newMarker_spec y 0 cand s).2.2
  · obtain ⟨idx, hidx⟩ : ∃ idx : Nat, prev_index = (idx : Int) :=
      ⟨prev_index.toNat, by omega⟩
    rw [hidx]
    by_cases hx : (s.markers.array.getD idx default).x = cand
    · rw [markSide_extend y 0 s cand idx hx]
    · simpa using (markSide_link y 0 s cand _ idx rfl hx).2.2

/-! ## Claims about one row of the tracking loop -/

/-- C2: evaluation of the tracking loop on the 4x2 image whose columns 0, 1 and 2 are
transparent in both rows.  At the start of row 1 the left register is absent and the right
register is present (index 0), the interval of row 1 is `[0, 3)`, and the top-cap statement
nevertheless appends the cap `(0, 0, 3, 1)`: the guard consults the left register only. -/
theorem topCap_with_open_right_register :
    (trackRows (scanRow leftEdgeBand) 1).prev_left_index = -1 ∧
    (trackRows (scanRow leftEdgeBand) 1).prev_right_index = 0 ∧
    scanRow leftEdgeBand 1 = ⟨0, 3⟩ ∧
    (topCap (scanRow leftEdgeBand 1) 1 (trackRows (scanRow leftEdgeBand) 1)).markers.array =
      (trackRows (scanRow leftEdgeBand) 1).markers.array ++ [⟨0, 0, 3, 1⟩] := by
  decide

/-- C3: at a row `y` whose interval is empty, if `y > 0` and the interval of row `y-1` is
non-empty then exactly the rectangle `(prev.start, y, prev.end - prev.start, 1)` is
appended to the marker list, otherwise the list is unchanged; in both cases both
registers are absent afterwards. -/
theorem rowStep_empty (rows : Nat → RowInfo) (y : Nat) (s : TrackState)
    (hempty : (rows y).transparent_start ≥ (rows y).transparent_end) :
    (rowStep rows y s).markers.array =
      (if 0 < y ∧ (rows (y - 1)).transparent_start < (rows (y - 1)).transparent_end then
        s.markers.array ++
          [⟨(rows (y - 1)).transparent_start, y,
            ((rows (y - 1)).transparent_end : Int) - ((rows (y - 1)).transparent_start : Int),
            1⟩]
      else s.markers.array) ∧
    (rowStep rows y s).prev_left_index = -1 ∧
    (rowStep rows y s).prev_right_index = -1 := by
  have hstep : rowStep rows y s = emptyRow rows y s := by
    simp only [rowStep, hempty, ↓reduceIte]
  rw [hstep]
  refine ⟨?_, rfl, rfl⟩
  by_cases hc : 0 < y ∧ (rows (y - 1)).transparent_start < (rows (y - 1)).transparent_end
  · have hw : (0 : Int) <
        ((rows (y - 1)).transparent_end : Int) - ((rows (y - 1)).transparent_start : Int) := by
      omega
    have ha := (add_marker_rectangle_array s.markers (rows (y - 1)).transparent_start y
      (((rows (y - 1)).transparent_end : Int) - ((rows (y - 1)).transparent_start : Int)) 1
      hw (by decide)).1
    simp only [emptyRow, gt_iff_lt, hc, and_self, ↓reduceIte, ha]
  · simp only [emptyRow, gt_iff_lt, hc, ↓reduceIte]

/-- Witness of C3: row 4 of the 5x5 centre-block image, reached after rows 0 to 3. -/
theorem rowStep_empty_witness :
    (rowStep (scanRow centreBlock5) 4 (trackRows (scanRow centreBlock5) 4)).markers.array =
      (if 0 < 4 ∧ (scanRow centreBlock5 (4 - 1)).transparent_start
            < (scanRow centreBlock5 (4 - 1)).transparent_end then
        (trackRows (scanRow centreBlock5) 4).markers.array ++
          [⟨(scanRow centreBlock5 (4 - 1)).transparent_start, (4 : Nat),
            ((scanRow centreBlock5 (4 - 1)).transparent_end : Int)
              - ((scanRow centreBlock5 (4 - 1)).transparent_start : Int), 1⟩]
      else (trackRows (scanRow centreBlock5) 4).markers.array) ∧
    (rowStep (scanRow centreBlock5) 4 (trackRows (scanRow centreBlock5) 4)).prev_left_index
      = -1 ∧
    (rowStep (scanRow centreBlock5) 4 (trackRows (scanRow centreBlock5) 4)).prev_right_index
      = -1 :=
  rowStep_empty (scanRow centreBlock5) 4 (trackRows (scanRow centreBlock5) 4) (by decide)

/-- C4: at a row `y` where side `i` has the valid candidate column `cand` and its register
holds the index `idx` of a rectangle `m` with `m.x` different from `cand`, the side step
appends exactly the link `(min cand m.x, r, |cand - m.x| + 1, 1)`, with `r = y` when the
side is shrinking (left: `cand > m.x`, right: `cand < m.x`) and `r = y - 1` otherwise,
followed by the new marker `(cand, y, 1, 1)`, whose index becomes the register of that
side while the other register is unchanged.  A left boundary moving from column 10 to
column 13 yields the link `(10, y, 4, 1)`. -/
theorem sideStep_link (row : RowInfo) (y i : Nat) (s : TrackState) (cand : Int) (idx : Nat)
    (m : MarkerWindow)
    (hside :
      (i = 0 ∧ row.transparent_start > 0 ∧ cand = (row.transparent_start : Int) - 1 ∧
        s.prev_left_index = (idx : Int)) ∨
      (i = 1 ∧ row.transparent_end > row.transparent_start + 1 ∧
        cand = (row.transparent_end : Int) ∧ s.prev_right_index = (idx : Int)))
    (hget : s.markers.array[idx]? = some m) (hne : m.x ≠ cand) :
    (sideStep row y i s).markers.array =
      s.markers.array ++
        [⟨min cand m.x,
          if (i = 0 ∧ cand > m.x) ∨ (i = 1 ∧ cand < m.x) then (y : Int) else (y : Int) - 1,
          |cand - m.x| + 1, 1⟩,
         ⟨cand, y, 1, 1⟩] ∧
    (i = 0 → (sideStep row y i s).prev_left_index = (s.markers.n_used : Int) + 1 ∧
      (sideStep row y i s).prev_right_index = s.prev_right_index) ∧
    (i = 1 → (sideStep row y i s).prev_right_index = (s.markers.n_used : Int) + 1 ∧
      (sideStep row y i s).prev_left_index = s.prev_left_index) ∧
    (i = 0 → m.x = 10 → cand = 13 →
      (sideStep row y i s).markers.array =
        s.markers.array ++ [⟨10, y, 4, 1⟩, ⟨13, y, 1, 1⟩]) := by
  have hold : (s.markers.array.getD idx default).x = m.x := by
    rw [getD_of_getElem? s.markers.array idx m hget]
  have hstep : sideStep row y i s = markSide y i cand (idx : Int) s := by
    rcases hside with ⟨hi, hpos, hc, hreg⟩ | ⟨hi, hpos, hc, hreg⟩
    · subst hi
      simp only [sideStep, hpos, and_self, ↓reduceIte, hreg, hc]
    · subst hi
      simp only [sideStep, hpos, and_self, ↓reduceIte, hreg, hc, one_ne_zero, false_and]
  rw [hstep]
  obtain ⟨h1, h2, h3⟩ := markSide_link y i s cand m.x idx hold hne
  refine ⟨h1, ?_, ?_, ?_⟩
  · intro hi
    subst hi
    exact ⟨by simpa using h2, by simpa using h3⟩
  · intro hi
    subst hi
    exact ⟨by simpa using h3, by simpa using h2⟩
  · intro hi hm hc
    rw [h1, hm, hc, hi]
    simp

/-- Witness of C4: an open left marker in column 10 and a row whose interval starts in
column 14, so that the left candidate is column 13. -/
theorem sideStep_link_witness :
    leftAt10.markers.array[0]? = some ⟨10, 0, 1, 1⟩ ∧
    (sideStep ⟨14, 20⟩ 1 0 leftAt10).markers.array =
      leftAt10.markers.array ++ [⟨10, 1, 4, 1⟩, ⟨13, 1, 1, 1⟩] ∧
    (sideStep ⟨14, 20⟩ 1 0 leftAt10).prev_left_index = 2 :=
  ⟨by decide,
    (sideStep_link ⟨14, 20⟩ 1 0 leftAt10 13 0 ⟨10, 0, 1, 1⟩
      (Or.inl ⟨rfl, by decide, by decide, by decide⟩) (by decide) (by decide)).2.2.2
      rfl rfl rfl,
    ((sideStep_link ⟨14, 20⟩ 1 0 leftAt10 13 0 ⟨10, 0, 1, 1⟩
      (Or.inl ⟨rfl, by decide, by decide, by decide⟩) (by decide) (by decide)).2.1 rfl).1⟩

/-- C5: at a row where side `i` has a valid candidate column and its register holds the
index `idx` of a rectangle `m` whose `x` equals that candidate, the side step appends no
rectangle, replaces the rectangle at `idx` by `m` with `h` incremented by exactly 1,
changes no other rectangle and leaves both registers as they were. -/
theorem sideStep_extend (row : RowInfo) (y i : Nat) (s : TrackState) (idx : Nat)
    (m : MarkerWindow)
    (hside :
      (i = 0 ∧ row.transparent_start > 0 ∧ m.x = (row.transparent_start : Int) - 1 ∧
        s.prev_left_index = (idx : Int)) ∨
      (i = 1 ∧ row.transparent_end > row.transparent_start + 1 ∧
        m.x = (row.transparent_end : Int) ∧ s.prev_right_index = (idx : Int)))
    (hget : s.markers.array[idx]? = some m) :
    (sideStep row y i s).markers.array.length = s.markers.array.length ∧
    (sideStep row y i s).markers.array[idx]? = some ⟨m.x, m.y, m.w, m.h + 1⟩ ∧
    (∀ j, j ≠ idx → (sideStep row y i s).markers.array[j]? = s.markers.array[j]?) ∧
    (sideStep row y i s).prev_left_index = s.prev_left_index ∧
    (sideStep row y i s).prev_right_index = s.prev_right_index := by
  have hold : (s.markers.array.getD idx default).x = m.x := by
    rw [getD_of_getElem? s.markers.array idx m hget]
  have hstep : sideStep row y i s = markSide y i m.x (idx : Int) s := by
    rcases hside with ⟨hi, hpos, hc, hreg⟩ | ⟨hi, hpos, hc, hreg⟩
    · subst hi
      simp only [sideStep, hpos, and_self, ↓reduceIte, hreg, hc]
    · subst hi
      simp only [sideStep, hpos, and_self, ↓reduceIte, hreg, hc, one_ne_zero, false_and]
  rw [hstep, markSide_extend y i s m.x idx hold]
  exact ⟨incr_h_length _ _, incr_h_get_eq _ _ m hget, fun j hj => incr_h_get_ne _ _ j hj,
    rfl, rfl⟩

/-- Witness of C5: an open left marker in column 10 and a row whose interval starts in
column 11. -/
theorem sideStep_extend_witness :
    leftAt10.markers.array[0]? = some ⟨10, 0, 1, 1⟩ ∧
    (sideStep ⟨11, 20⟩ 1 0 leftAt10).markers.array.length = leftAt10.markers.array.length ∧
    (sideStep ⟨11, 20⟩ 1 0 leftAt10).markers.array[0]? = some ⟨10, 0, 1, 1 + 1⟩ :=
  ⟨by decide,
    (sideStep_extend ⟨11, 20⟩ 1 0 leftAt10 0 ⟨10, 0, 1, 1⟩
      (Or.inl ⟨rfl, by decide, by decide, by decide⟩) (by decide)).1,
    (sideStep_extend ⟨11, 20⟩ 1 0 leftAt10 0 ⟨10, 0, 1, 1⟩
      (Or.inl ⟨rfl, by decide, by decide, by decide⟩) (by decide)).2.1⟩

/-- C6: at a row with a non-empty interval, a side without a valid candidate (left:
`start = 0`; right: `end <= start + 1`) leaves the whole tracking state unchanged: nothing
is appended, nothing grows and its register stays.  For a row whose interval is `[5, 6)`
the right side is skipped, so the row step is the top-cap statement followed by the left
side body with candidate column 4, and the right register is unchanged. -/
theorem sideStep_no_candidate (rows : Nat → RowInfo) (y : Nat) (s : TrackState)
    (hne : (rows y).transparent_start < (rows y).transparent_end) :
    ((rows y).transparent_start = 0 → ∀ t : TrackState, sideStep (rows y) y 0 t = t) ∧
    ((rows y).transparent_end ≤ (rows y).transparent_start + 1 →
      ∀ t : TrackState, sideStep (rows y) y 1 t = t) ∧
    (rows y = ⟨5, 6⟩ →
      rowStep rows y s = markSide y 0 4 s.prev_left_index (topCap (rows y) y s) ∧
      (rowStep rows y s).prev_right_index = s.prev_right_index) := by
  refine ⟨?_, ?_, ?_⟩
  · intro h0 t
    simp [sideStep, h0]
  · intro h1 t
    have h2 : ¬ (rows y).transparent_end > (rows y).transparent_start + 1 := by omega
    simp [sideStep, h2]
  · intro h56
    have hcap : (topCap (rows y) y s).prev_left_index = s.prev_left_index ∧
        (topCap (rows y) y s).prev_right_index = s.prev_right_index := by
      unfold topCap
      split <;> exact ⟨rfl, rfl⟩
    have hstep : rowStep rows y s
        = markSide y 0 4 s.prev_left_index (topCap (rows y) y s) := by
      have hge : ¬ (rows y).transparent_start ≥ (rows y).transparent_end := by omega
      simp only [rowStep, hge, ↓reduceIte]
      rw [h56] at hcap ⊢
      simp [sideStep, hcap.1]
    rw [hstep, markSide_left_keeps_right, hcap.2]
    exact ⟨rfl, rfl⟩

/-- Witness of C6: the first row of an image, with interval `[5, 6)`. -/
theorem sideStep_no_candidate_witness :
    (5 : Nat) < 6 ∧
    rowStep (fun _ => ⟨5, 6⟩) 0 initState
      = markSide 0 0 4 initState.prev_left_index (topCap ⟨5, 6⟩ 0 initState) ∧
    (rowStep (fun _ => ⟨5, 6⟩) 0 initState).prev_right_index = initState.prev_right_index :=
  ⟨by decide,
    (sideStep_no_candidate (fun _ => ⟨5, 6⟩) 0 initState (by decide)).2.2 rfl⟩

/-! ## Whole-image lemmas -/

theorem scanRow_band (img : Image) (y c1 c2 : Nat) (hW : 1 ≤ img.image_width)
    (h12 : c1 < c2) (h2 : c2 ≤ img.image_width) (hc : img.image_width / 2 < c2)
    (hband : ∀ x, x < img.image_width →
      (img.isTransparent x y = true ↔ c1 ≤ x ∧ x < c2)) :
    scanRow img y = ⟨c1, c2⟩ := by
  have hsolid : ∀ x, x < img.image_width → img.isTransparent x y = false →
      ¬ (c1 ≤ x ∧ x < c2) := by
    intro x hx hf ht
    rw [(hband x hx).2 ht] at hf
    exact absurd hf (by simp)
  have key : (scanRow img y).transparent_start = c1 ∧ (scanRow img y).transparent_end = c2 := by
    by_cases hT : img.isTransparent (img.image_width / 2) y = true
    · obtain ⟨hs, he, r1, r2, r3, r4, r5⟩ := scanRow_centre img y hW hT
      have a1 := (hband _ (by omega)).1 (r3 (scanRow img y).transparent_start le_rfl r1)
      have a2 := (hband _ (by omega)).1
        (r3 ((scanRow img y).transparent_end - 1) (by omega) (by omega))
      have a3 : (scanRow img y).transparent_start ≤ c1 := by
        rcases r4 with r4 | r4
        · omega
        · have := hsolid _ (by omega) r4
          omega
      have a4 : c2 ≤ (scanRow img y).transparent_end := by
        rcases r5 with r5 | r5
        · omega
        · by_contra hlt
          have := hsolid _ (by omega) r5
          omega
      omega
    · simp only [Bool.not_eq_true] at hT
      have hcc := hsolid _ (by omega) hT
      have hT1 : img.isTransparent c1 y = true := (hband c1 (by omega)).2 ⟨le_rfl, h12⟩
      obtain ⟨hs, hTs, hmin, r1, r2, r3, r4, r5⟩ :=
        scanRow_right img y hT ⟨c1, by omega, by omega, hT1⟩
      have a1 := (hband _ (by omega)).1 hTs
      have a2 := (hband _ (by omega)).1
        (r3 ((scanRow img y).transparent_end - 1) (by omega) (by omega))
      have a3 : (scanRow img y).transparent_start ≤ c1 := by
        by_contra hlt
        have := hmin c1 (by omega) (by omega)
        rw [hT1] at this
        exact absurd this (by simp)
      have a4 : c2 ≤ (scanRow img y).transparent_end := by
        rcases r5 with r5 | r5
        · omega
        · by_contra hlt
          have := hsolid _ (by omega) r5
          omega
      omega
  cases hrow : scanRow img y with
  | mk a b =>
    rw [hrow] at key
    simp only at key
    rw [key.1, key.2]

theorem scanRow_all255 (img : Image) (y : Nat) (hW : 0 < img.image_width)
    (hrow : ∀ x, x < img.image_width →
      img.data (img.image_width * 4 * y + 4 * x + 3) = 255) :
    scanRow img y = ⟨0, 0⟩ := by
  have hT : ∀ x, x < img.image_width → img.isTransparent x y = false := by
    intro x hx
    simp [Image.isTransparent, transparent, hrow x hx]
  exact scanRow_none img y (hT _ (Nat.div_lt_self hW (by omega))) (fun x _ hx => hT x hx)

theorem trackRows_blank (rows : Nat → RowInfo) :
    ∀ n, (∀ y, y < n → rows y = ⟨0, 0⟩) → trackRows rows n = initState
  | 0, _ => rfl
  | n + 1, h => by
    have ih := trackRows_blank rows n (fun y hy => h y (by omega))
    have hn := h n (by omega)
    have hprev : ¬ (0 < n ∧ (rows (n - 1)).transparent_start
        < (rows (n - 1)).transparent_end) := by
      intro hp
      have := h (n - 1) (by omega)
      rw [this] at hp
      simp at hp
    simp only [trackRows, ih, rowStep, hn, ge_iff_le, le_refl, ↓reduceIte, emptyRow, gt_iff_lt,
      hprev]
    rfl

theorem trackRows_band_wide (rows : Nat → RowInfo) (c1 c2 : Nat) (h0 : 0 < c1)
    (h12 : c1 + 1 < c2) :
    ∀ n, (∀ y, y ≤ n → rows y = ⟨c1, c2⟩) →
      trackRows rows (n + 1) =
        ⟨⟨[⟨(c1 : Int) - 1, 0, 1, (n : Int) + 1⟩, ⟨c2, 0, 1, (n : Int) + 1⟩], 2⟩, 0, 1⟩
  | 0, h => by
    have hr := h 0 le_rfl
    have hge : ¬ c1 ≥ c2 := by omega
    have hw : c2 > c1 + 1 := h12
    simp [trackRows, rowStep, hr, hge, topCap, sideStep, h0, hw, initState, markSide, newMarker,
      add_marker_rectangle, MarkerWindowArray.n_used]
  | n + 1, h => by
    have ih := trackRows_band_wide rows c1 c2 h0 h12 n (fun y hy => h y (by omega))
    have hr := h (n + 1) le_rfl
    have hge : ¬ c1 ≥ c2 := by omega
    have hw : c2 > c1 + 1 := h12
    rw [trackRows, ih]
    simp [rowStep, hr, hge, topCap, sideStep, h0, hw, markSide, incr_h]

theorem trackRows_band_narrow (rows : Nat → RowInfo) (c1 : Nat) (h0 : 0 < c1) :
    ∀ n, (∀ y, y ≤ n → rows y = ⟨c1, c1 + 1⟩) →
      trackRows rows (n + 1) = ⟨⟨[⟨(c1 : Int) - 1, 0, 1, (n : Int) + 1⟩], 1⟩, 0, -1⟩
  | 0, h => by
    have hr := h 0 le_rfl
    simp [trackRows, rowStep, hr, topCap, sideStep, h0, initState, markSide, newMarker,
      add_marker_rectangle, MarkerWindowArray.n_used]
  | n + 1, h => by
    have ih := trackRows_band_narrow rows c1 h0 n (fun y hy => h y (by omega))
    have hr := h (n + 1) le_rfl
    rw [trackRows, ih]
    simp [rowStep, hr, topCap, sideStep, h0, markSide, incr_h]

/-! ## Claims about whole images -/

/-- C7, as stated, fails: on the 5x5 image with an opaque border and a transparent 3x3
centre the marker list is no rearrangement of the top cap `(1,0,3,1)`, the left marker
`(0,1,1,3)`, the right marker `(4,1,1,3)` and a bottom cap `(1,3,3,1)`; the rectangle
`(1,3,3,1)` is not in the list at all. -/
theorem centreBlock5_no_cap_in_row3 :
    ¬ List.Perm (load_overlay_image_and_determine_marker_lines centreBlock5).array
        [⟨1, 0, 3, 1⟩, ⟨0, 1, 1, 3⟩, ⟨4, 1, 1, 3⟩, ⟨1, 3, 3, 1⟩] ∧
    (⟨1, 3, 3, 1⟩ : MarkerWindow) ∉
      (load_overlay_image_and_determine_marker_lines centreBlock5).array := by
  have hmem : (⟨1, 3, 3, 1⟩ : MarkerWindow) ∉
      (load_overlay_image_and_determine_marker_lines centreBlock5).array := by decide
  refine ⟨fun hp => hmem (hp.mem_iff.2 (by decide)), hmem⟩

/-- C7, amended: on the 5x5 image with an opaque border and a transparent 3x3 centre the
marker list is exactly the top cap `(1,0,3,1)`, the left marker `(0,1,1,3)`, the right
marker `(4,1,1,3)` and the bottom cap `(1,4,3,1)` placed in row 4, in this order; there is
no link rectangle. -/
theorem centreBlock5_markers :
    (load_overlay_image_and_determine_marker_lines centreBlock5).array =
      [⟨1, 0, 3, 1⟩, ⟨0, 1, 1, 3⟩, ⟨4, 1, 1, 3⟩, ⟨1, 4, 3, 1⟩] := by
  decide

/-- C8, as stated, fails in three ways.  For `W = 5`, `H = 2`, `c1 = 1`, `c2 = 3` the marker
list is the two vertical markers only, so it is not these two plus a top cap.  For `W = 5`,
`H = 1`, `c1 = 2`, `c2 = 3` only the left marker is produced.  For `W = 10`, `H = 1`,
`c1 = 1`, `c2 = 3` the list is empty. -/
theorem columnBand_counterexamples :
    (¬ ∃ cap : MarkerWindow,
      List.Perm (load_overlay_image_and_determine_marker_lines (columnBand 5 2 1 3)).array
        [⟨0, 0, 1, 2⟩, ⟨3, 0, 1, 2⟩, cap]) ∧
    (load_overlay_image_and_determine_marker_lines (columnBand 5 2 1 3)).array =
      [⟨0, 0, 1, 2⟩, ⟨3, 0, 1, 2⟩] ∧
    (load_overlay_image_and_determine_marker_lines (columnBand 5 1 2 3)).array =
      [⟨1, 0, 1, 1⟩] ∧
    (load_overlay_image_and_determine_marker_lines (columnBand 10 1 1 3)).array = [] := by
  have h : (load_overlay_image_and_determine_marker_lines (columnBand 5 2 1 3)).array =
      [⟨0, 0, 1, 2⟩, ⟨3, 0, 1, 2⟩] := by decide
  refine ⟨?_, h, by decide, by decide⟩
  rintro ⟨cap, hp⟩
  have hl := hp.length_eq
  rw [h] at hl
  simp at hl

/-- C8, amended: for every `W, H > 0` and `c1, c2` with `0 < c1 < c2 < W - 1` and
`W / 2 < c2`, on an image whose transparent pixels are exactly the columns `[c1, c2)` of
every row, the marker list is exactly the left vertical marker `(c1 - 1, 0, 1, H)`
followed, when `c2 > c1 + 1`, by the right vertical marker `(c2, 0, 1, H)`; it holds no
top cap and no link rectangle. -/
theorem columnBand_markers (img : Image) (c1 c2 : Nat)
    (hW : 0 < img.image_width) (hH : 0 < img.image_height)
    (h0 : 0 < c1) (h12 : c1 < c2) (h2 : c2 + 1 < img.image_width)
    (hc : img.image_width / 2 < c2)
    (hband : ∀ x, x < img.image_width → ∀ y, y < img.image_height →
      (img.isTransparent x y = true ↔ c1 ≤ x ∧ x < c2)) :
    (load_overlay_image_and_determine_marker_lines img).array =
      (if c1 + 1 < c2 then
        [⟨(c1 : Int) - 1, 0, 1, img.image_height⟩, ⟨c2, 0, 1, img.image_height⟩]
      else
        [⟨(c1 : Int) - 1, 0, 1, img.image_height⟩]) := by
  have hrows : ∀ y, y < img.image_height → scanRow img y = ⟨c1, c2⟩ := fun y hy =>
    scanRow_band img y c1 c2 hW h12 (by omega) hc (fun x hx => hband x hx y hy)
  obtain ⟨n, hn⟩ : ∃ n, img.image_height = n + 1 := ⟨img.image_height - 1, by omega⟩
  unfold load_overlay_image_and_determine_marker_lines
  rw [hn]
  by_cases hwide : c1 + 1 < c2
  · rw [trackRows_band_wide (scanRow img) c1 c2 h0 hwide n (fun y hy => hrows y (by omega))]
    simp [hwide]
  · have hc2 : c2 = c1 + 1 := by omega
    subst hc2
    rw [trackRows_band_narrow (scanRow img) c1 h0 n (fun y hy => hrows y (by omega))]
    simp

/-- Witness of C8 (amended): the 5x2 image whose columns 1 and 2 are transparent. -/
theorem columnBand_markers_witness :
    (0 : Nat) < 1 ∧ (1 : Nat) < 3 ∧ 3 + 1 < (columnBand 5 2 1 3).image_width ∧
    (columnBand 5 2 1 3).image_width / 2 < 3 ∧
    (load_overlay_image_and_determine_marker_lines (columnBand 5 2 1 3)).array =
      (if 1 + 1 < 3 then
        [⟨((1 : Nat) : Int) - 1, 0, 1, (columnBand 5 2 1 3).image_height⟩,
          ⟨(3 : Nat), 0, 1, (columnBand 5 2 1 3).image_height⟩]
      else
        [⟨((1 : Nat) : Int) - 1, 0, 1, (columnBand 5 2 1 3).image_height⟩]) :=
  ⟨by decide, by decide, by decide, by decide,
    columnBand_markers (columnBand 5 2 1 3) 1 3 (by decide) (by decide) (by decide)
      (by decide) (by decide) (by decide) (by decide)⟩

/-- C9: for every image of width and height above 0 in which every alpha byte equals 255,
the marker list produced by the row scan and the tracking loop is empty. -/
theorem opaque_image_no_markers (img : Image)
    (hW : 0 < img.image_width) (_hH : 0 < img.image_height)
    (hsolid : ∀ x, x < img.image_width → ∀ y, y < img.image_height →
      img.data (img.image_width * 4 * y + 4 * x + 3) = 255) :
    (load_overlay_image_and_determine_marker_lines img).array = [] ∧
    (load_overlay_image_and_determine_marker_lines img).n_used = 0 := by
  have hrows : ∀ y, y < img.image_height → scanRow img y = ⟨0, 0⟩ := fun y hy =>
    scanRow_all255 img y hW (fun x hx => hsolid x hx y hy)
  unfold load_overlay_image_and_determine_marker_lines
  rw [trackRows_blank (scanRow img) img.image_height hrows]
  exact ⟨rfl, rfl⟩

/-- Witness of C9: the fully opaque 3x2 image. -/
theorem opaque_image_no_markers_witness :
    (∀ x, x < (mkImage 3 2 fun _ _ => false).image_width →
      ∀ y, y < (mkImage 3 2 fun _ _ => false).image_height →
      (mkImage 3 2 fun _ _ => false).data
        ((mkImage 3 2 fun _ _ => false).image_width * 4 * y + 4 * x + 3) = 255) ∧
    (load_overlay_image_and_determine_marker_lines (mkImage 3 2 fun _ _ => false)).array
      = [] ∧
    (load_overlay_image_and_determine_marker_lines (mkImage 3 2 fun _ _ => false)).n_used
      = 0 :=
  ⟨fun _ _ _ _ => by simp [mkImage],
    opaque_image_no_markers (mkImage 3 2 fun _ _ => false) (by decide) (by decide)
      (fun _ _ _ _ => by simp [mkImage])⟩

/-- C10: evaluation on the 4x2 image whose columns 0, 1 and 2 are transparent in both
rows.  The final marker list holds the cap `(0, 0, 3, 1)`, which lies in row 0, and the
interval detected for row 0 is `[0, 3)`: the pixels `(0,0)`, `(1,0)` and `(2,0)` of that
rectangle are inside the transparent interval of their row. -/
theorem leftEdgeBand_cap_over_transparent_row :
    (load_overlay_image_and_determine_marker_lines leftEdgeBand).array =
      [⟨3, 0, 1, 2⟩, ⟨0, 0, 3, 1⟩] ∧
    scanRow leftEdgeBand 0 = ⟨0, 3⟩ ∧
    (∃ m ∈ (load_overlay_image_and_determine_marker_lines leftEdgeBand).array,
      ∃ px py : Nat, m.x ≤ px ∧ px < m.x + m.w ∧ m.y ≤ py ∧ py < m.y + m.h ∧
        (scanRow leftEdgeBand py).transparent_start ≤ px ∧
        px < (scanRow leftEdgeBand py).transparent_end) := by
  refine ⟨by decide, by decide, ⟨0, 0, 3, 1⟩, by decide, 0, 0, ?_⟩
  decide

/-! ## Claims C11, C12, C14 and C15 -/

/-- C11: evaluation on the 6x3 image with the transparent columns `[2, 5)`, `[0, 5)` and
`[1, 5)` in rows 0, 1 and 2.  Row 1 starts in column 0, so its left side has no candidate
and the left register still refers to the marker in column 1 made in row 0.  At row 2 the
left candidate is column 0, the side is not shrinking, and the link `(0, 1, 2, 1)` is
appended on row 1, whose detected interval is `[0, 5)`: both link columns are inside it. -/
theorem leftEdgeStep_link_over_transparent_row :
    scanRow leftEdgeStep 1 = ⟨0, 5⟩ ∧
    scanRow leftEdgeStep 2 = ⟨1, 5⟩ ∧
    (trackRows (scanRow leftEdgeStep) 2).markers.array = [⟨1, 0, 1, 1⟩, ⟨5, 0, 1, 2⟩] ∧
    (trackRows (scanRow leftEdgeStep) 2).prev_left_index = 0 ∧
    (sideStep (scanRow leftEdgeStep 2) 2 0
        (topCap (scanRow leftEdgeStep 2) 2 (trackRows (scanRow leftEdgeStep) 2))).markers.array
      = (trackRows (scanRow leftEdgeStep) 2).markers.array ++ [⟨0, 1, 2, 1⟩, ⟨0, 2, 1, 1⟩] ∧
    (load_overlay_image_and_determine_marker_lines leftEdgeStep).array =
      [⟨1, 0, 1, 1⟩, ⟨5, 0, 1, 3⟩, ⟨0, 1, 2, 1⟩, ⟨0, 2, 1, 1⟩] := by
  decide

/-- C12: `add_marker_rectangle(x, y, w, h)` on a list of `n` rectangles.  If `w <= 0` or
`h <= 0` it returns -1 and the array is unchanged.  Otherwise it returns `n`, the count
becomes `n + 1`, the rectangle at index `n` is `(x, y, w, h)` and the rectangles below
`n` are unchanged.  It returns -1 in no other case. -/
theorem add_marker_rectangle_spec (g : MarkerWindowArray) (x y w h : Int) :
    ((w ≤ 0 ∨ h ≤ 0) → add_marker_rectangle g x y w h = (g, -1)) ∧
    (¬ (w ≤ 0 ∨ h ≤ 0) →
      (add_marker_rectangle g x y w h).2 = (g.n_used : Int) ∧
      (add_marker_rectangle g x y w h).1.n_used = g.n_used + 1 ∧
      (add_marker_rectangle g x y w h).1.array[g.n_used]? = some ⟨x, y, w, h⟩ ∧
      ∀ i, i < g.n_used → (add_marker_rectangle g x y w h).1.array[i]? = g.array[i]?) ∧
    ((add_marker_rectangle g x y w h).2 = -1 ↔ (w ≤ 0 ∨ h ≤ 0)) := by
  by_cases hc : w ≤ 0 ∨ h ≤ 0
  · have hr : add_marker_rectangle g x y w h = (g, -1) := by
      simp only [add_marker_rectangle, hc, ↓reduceIte]
    refine ⟨fun _ => hr, fun hn => absurd hc hn, ?_⟩
    rw [hr]
    exact ⟨fun _ => hc, fun _ => rfl⟩
  · obtain ⟨ha, hi⟩ := add_marker_rectangle_array g x y w h (by omega) (by omega)
    refine ⟨fun h0 => absurd h0 hc, fun _ => ⟨hi, ?_, ?_, ?_⟩, ?_⟩
    · simp [MarkerWindowArray.n_used, ha]
    · simp [MarkerWindowArray.n_used, ha]
    · intro i hlt
      rw [ha]
      exact List.getElem?_append_left hlt
    · rw [hi]
      constructor
      · intro h1
        omega
      · intro h1
        exact absurd h1 hc

/-- C14: evaluation on the 10x1 image whose columns 1 and 2 are transparent.  The centre
column 5 is not transparent, so the leftward loop stops at once, the rightward loop finds
nothing, and the row scan yields the empty interval `(0, 0)` although the pixels `(1, 0)`
and `(2, 0)` are transparent (alpha 0). -/
theorem leftOfCentreBand_scans_empty :
    scanRow leftOfCentreBand 0 = ⟨0, 0⟩ ∧
    leftOfCentreBand.isTransparent 1 0 = true ∧
    leftOfCentreBand.isTransparent 2 0 = true ∧
    leftOfCentreBand.data (leftOfCentreBand.image_width * 4 * 0 + 4 * 1 + 3) = 0 := by
  decide

/-- C15: evaluation of the countdown on a start at 23:59:00.000 with `MINUTES = 2`, one
minute (60000 ms) later.  The expiry time is 24:01:00.000, the current local time has
wrapped to 00:00:00.000, and `calculate_time_until_expiry` returns true with the remaining
time 24:01:00.000, that is 86460000 ms and not the 60000 ms that are left. -/
theorem countdown_across_midnight :
    set_expiry_time ⟨23, 59, 0, 0⟩ 2 = ⟨24, 1, 0, 0⟩ ∧
    timeOfDayAfter ⟨23, 59, 0, 0⟩ 60000 = ⟨0, 0, 0, 0⟩ ∧
    calculate_time_until_expiry (set_expiry_time ⟨23, 59, 0, 0⟩ 2)
        (timeOfDayAfter ⟨23, 59, 0, 0⟩ 60000) = (⟨24, 1, 0, 0⟩, true) ∧
    (calculate_time_until_expiry (set_expiry_time ⟨23, 59, 0, 0⟩ 2)
        (timeOfDayAfter ⟨23, 59, 0, 0⟩ 60000)).1.totalMs = 86460000 ∧
    2 * 60000 - 60000 = 60000 := by
  decide

/-! ## Command line lemmas -/

theorem DQUOTE_ne_NUL : DQUOTE ≠ NUL := by decide

theorem isspace_NUL : isspace NUL = false := by decide

theorem skipSpace_eq_dropWhile :
    ∀ s : List Char, NUL ∉ s → skipSpace s = s.dropWhile isspace
  | [], _ => rfl
  | ch :: rest, h => by
    have hch : ch ≠ NUL := fun e => h (by simp [e])
    have hrest : NUL ∉ rest := fun e => h (List.mem_cons_of_mem _ e)
    by_cases hsp : isspace ch = true
    · simp [skipSpace, hch, hsp, List.dropWhile, skipSpace_eq_dropWhile rest hrest]
    · simp [skipSpace, hch, hsp, List.dropWhile]

theorem copyArg_eq_documented :
    ∀ (s : List Char) (q : Bool) (arg : List Char), NUL ∉ s →
      (copyArg s q arg).1 =
        arg ++ ((s.take (argExtent q s)).filter fun ch => decide (ch ≠ DQUOTE))
  | [], _, _, _ => by simp [copyArg, argExtent]
  | ch :: rest, q, arg, h => by
    have hch : ch ≠ NUL := fun e => h (by simp [e])
    have hrest : NUL ∉ rest := fun e => h (List.mem_cons_of_mem _ e)
    by_cases hq : ch = DQUOTE
    · simp [copyArg, argExtent, hq, copyArg_eq_documented rest (!q) arg hrest]
    · by_cases hsp : isspace ch = true
      · cases q with
        | true =>
          simp [copyArg, argExtent, hq, hch, hsp,
            copyArg_eq_documented rest true (arg ++ [ch]) hrest]
        | false =>
          simp [copyArg, argExtent, hq, hch, hsp]
      · simp [copyArg, argExtent, hq, hch, hsp,
          copyArg_eq_documented rest q (arg ++ [ch]) hrest]

theorem copyArg_length :
    ∀ (s : List Char) (q : Bool) (arg : List Char),
      (copyArg s q arg).1.length ≤ arg.length + strlen s
  | [], _, _ => by simp [copyArg, strlen]
  | ch :: rest, q, arg => by
    by_cases hq : ch = DQUOTE
    · have := copyArg_length rest (!q) arg
      have hn : ¬ DQUOTE = NUL := DQUOTE_ne_NUL
      simp [copyArg, strlen, hq, hn]
      omega
    · by_cases hn : ch = NUL
      · have hn2 : ¬ NUL = DQUOTE := fun e => DQUOTE_ne_NUL e.symm
        simp [copyArg, strlen, hn, hn2]
      · by_cases hsp : isspace ch = true
        · cases q with
          | true =>
            have := copyArg_length rest true (arg ++ [ch])
            simp [copyArg, strlen, hq, hn, hsp] at this ⊢
            omega
          | false =>
            simp [copyArg, strlen, hq, hn, hsp]
        · have := copyArg_length rest q (arg ++ [ch])
          simp [copyArg, strlen, hq, hn, hsp] at this ⊢
          omega

theorem headD_dropWhile_eq_NUL (s : List Char) (h : NUL ∉ s) :
    (s.dropWhile isspace).headD NUL = NUL ↔ s.dropWhile isspace = [] := by
  constructor
  · intro hh
    cases hd : s.dropWhile isspace with
    | nil => rfl
    | cons c cs =>
      rw [hd] at hh
      simp at hh
      have hmem : c ∈ s := (List.dropWhile_sublist isspace).subset (by rw [hd]; simp)
      rw [hh] at hmem
      exact absurd hmem h
  · intro hh
    rw [hh]
    rfl

/-! ## Claim C16 -/

/-- C16: for every NUL-terminated command line, `consume_and_dup_command_line_argument`
returns the documented argument: after skipping the leading whitespace it returns null
if and only if nothing remains, and otherwise the text up to the first whitespace
character outside double quotes (or the end of the string) with every double quote
removed and the quoted whitespace kept.  The characters written never exceed `strlen`
of the text, so with the terminator they fit the `strlen + 1` bytes allocated.  The three
documented spellings yield the argument `--background=example directory\back ground.png`. -/
theorem consume_and_dup_command_line_argument_spec (cmdline : List Char)
    (hnul : NUL ∉ cmdline) :
    (consume_and_dup_command_line_argument cmdline).1 = documentedArgument cmdline ∧
    ((consume_and_dup_command_line_argument cmdline).1 = none ↔
      cmdline.dropWhile isspace = []) ∧
    (∀ arg, (consume_and_dup_command_line_argument cmdline).1 = some arg →
      arg.length < strlen (skipSpace cmdline) + 1) ∧
    (consume_and_dup_command_line_argument spelling1).1 = some backgroundArgument ∧
    (consume_and_dup_command_line_argument spelling2).1 = some backgroundArgument ∧
    (consume_and_dup_command_line_argument spelling3).1 = some backgroundArgument := by
  have htext : NUL ∉ cmdline.dropWhile isspace :=
    fun e => hnul ((List.dropWhile_sublist isspace).subset e)
  have hskip := skipSpace_eq_dropWhile cmdline hnul
  have hhead := headD_dropWhile_eq_NUL cmdline hnul
  by_cases hd : cmdline.dropWhile isspace = []
  · have hres : (consume_and_dup_command_line_argument cmdline).1 = none := by
      simp [consume_and_dup_command_line_argument, hskip, hd]
    refine ⟨?_, ?_, ?_, by decide, by decide, by decide⟩
    · rw [hres]
      simp [documentedArgument, hd]
    · rw [hres]
      exact ⟨fun _ => hd, fun _ => rfl⟩
    · intro arg ha
      rw [hres] at ha
      exact absurd ha (by simp)
  · have hne : ¬ (cmdline.dropWhile isspace).headD NUL = NUL := fun e => hd (hhead.1 e)
    have hres : (consume_and_dup_command_line_argument cmdline).1
        = some (copyArg (cmdline.dropWhile isspace) false []).1 := by
      simp only [consume_and_dup_command_line_argument, hskip, hne, ↓reduceIte]
    refine ⟨?_, ?_, ?_, by decide, by decide, by decide⟩
    · rw [hres, copyArg_eq_documented _ false [] htext]
      simp [documentedArgument, hd]
    · rw [hres]
      exact ⟨fun e => absurd e (by simp), fun e => absurd e hd⟩
    · intro arg ha
      rw [hres] at ha
      have harg : arg = (copyArg (cmdline.dropWhile isspace) false []).1 := by
        simpa using ha.symm
      have hlen := copyArg_length (cmdline.dropWhile isspace) false []
      rw [hskip, harg]
      simp at hlen
      omega

/-- Witness of C16: the second documented spelling between other text. -/
theorem consume_and_dup_command_line_argument_spec_witness :
    NUL ∉ " 10  ".toList ++ spelling2 ++ " 20".toList ∧
    (consume_and_dup_command_line_argument
        (" 10  ".toList ++ spelling2 ++ " 20".toList)).1
      = documentedArgument (" 10  ".toList ++ spelling2 ++ " 20".toList) :=
  ⟨by decide,
    (consume_and_dup_command_line_argument_spec
      (" 10  ".toList ++ spelling2 ++ " 20".toList) (by decide)).1⟩

/-! ## Growth of the marker list in one row -/

theorem growsAt_refl (c : Option Int) (l : List MarkerWindow) : GrowsAt c l l :=
  fun _ m1 h => ⟨m1, h, rfl, rfl, rfl, Or.inl rfl⟩

theorem growsAt_append (c : Option Int) (l t : List MarkerWindow) : GrowsAt c l (l ++ t) := by
  intro j m1 h
  have hj : j < l.length := (List.getElem?_eq_some.1 h).1
  exact ⟨m1, by rw [List.getElem?_append_left hj]; exact h, rfl, rfl, rfl, Or.inl rfl⟩

theorem growsAt_incr_h (c : Int) (l : List MarkerWindow) (idx : Nat)
    (hx : (l.getD idx default).x = c) : GrowsAt (some c) l (incr_h l idx) := by
  intro j m1 h
  by_cases hj : j = idx
  · subst hj
    refine ⟨_, incr_h_get_eq l j m1 h, rfl, rfl, rfl, Or.inr ⟨rfl, ?_⟩⟩
    rw [getD_of_getElem? l j m1 h] at hx
    rw [hx]
  · exact ⟨m1, by rw [incr_h_get_ne l idx j hj]; exact h, rfl, rfl, rfl, Or.inl rfl⟩

theorem growsAt_none_left (c : Option Int) (l1 l2 l3 : List MarkerWindow)
    (h12 : GrowsAt none l1 l2) (h23 : GrowsAt c l2 l3) : GrowsAt c l1 l3 := by
  intro j m1 h
  obtain ⟨m2, g2, x2, y2, w2, hh2⟩ := h12 j m1 h
  obtain ⟨m3, g3, x3, y3, w3, hh3⟩ := h23 j m2 g2
  have hsame : m2.h = m1.h := by
    rcases hh2 with e | ⟨_, e⟩
    · exact e
    · exact absurd e (by simp)
  refine ⟨m3, g3, by rw [x3, x2], by rw [y3, y2], by rw [w3, w2], ?_⟩
  rcases hh3 with e | ⟨e, ec⟩
  · left; rw [e, hsame]
  · right; exact ⟨by rw [e, hsame], by rw [← x2]; exact ec⟩

theorem growsAt_two (a b : Int) (l1 l2 l3 : List MarkerWindow) (hab : a ≠ b)
    (h12 : GrowsAt (some a) l1 l2) (h23 : GrowsAt (some b) l2 l3) : GrowsFrom l1 l3 := by
  constructor
  · by_contra hlen
    have hpos : l3.length < l1.length := by omega
    obtain ⟨m1, hm1⟩ : ∃ m1, l1[l3.length]? = some m1 :=
      ⟨l1[l3.length], List.getElem?_eq_getElem hpos⟩
    obtain ⟨m2, g2, _⟩ := h12 _ m1 hm1
    obtain ⟨m3, g3, _⟩ := h23 _ m2 g2
    have := (List.getElem?_eq_some.1 g3).1
    omega
  · intro j hj
    obtain ⟨m1, hm1⟩ : ∃ m1, l1[j]? = some m1 := ⟨l1[j], List.getElem?_eq_getElem hj⟩
    obtain ⟨m2, g2, x2, y2, w2, hh2⟩ := h12 j m1 hm1
    obtain ⟨m3, g3, x3, y3, w3, hh3⟩ := h23 j m2 g2
    refine ⟨m1, m3, hm1, g3, by rw [x3, x2], by rw [y3, y2], by rw [w3, w2], ?_⟩
    rcases hh2 with e2 | ⟨e2, c2⟩
    · rcases hh3 with e3 | ⟨e3, _⟩
      · left; rw [e3, e2]
      · right; rw [e3, e2]
    · rcases hh3 with e3 | ⟨_, c3⟩
      · right; rw [e3, e2]
      · exfalso
        simp only [Option.some.injEq] at c2 c3
        rw [x2, c2] at c3
        exact hab c3

theorem growsAt_weaken (c : Option Int) (l1 l2 : List MarkerWindow)
    (h : GrowsAt none l1 l2) : GrowsAt c l1 l2 := by
  intro j m1 hj
  obtain ⟨m2, g2, x2, y2, w2, hh2⟩ := h j m1 hj
  refine ⟨m2, g2, x2, y2, w2, ?_⟩
  rcases hh2 with e | ⟨_, e⟩
  · exact Or.inl e
  · exact absurd e (by simp)

theorem growsAt_to_growsFrom (c : Option Int) (l1 l2 : List MarkerWindow)
    (h : GrowsAt c l1 l2) : GrowsFrom l1 l2 := by
  constructor
  · by_contra hlen
    have hpos : l2.length < l1.length := by omega
    obtain ⟨m2, g2, _⟩ := h _ l1[l2.length] (List.getElem?_eq_getElem hpos)
    have := (List.getElem?_eq_some.1 g2).1
    omega
  · intro j hj
    obtain ⟨m2, g2, x2, y2, w2, hh2⟩ := h j l1[j] (List.getElem?_eq_getElem hj)
    refine ⟨l1[j], m2, List.getElem?_eq_getElem hj, g2, x2, y2, w2, ?_⟩
    rcases hh2 with e | ⟨e, _⟩
    · exact Or.inl e
    · exact Or.inr e

theorem markSide_growsAt (y i : Nat) (cand p : Int) (s : TrackState) :
    GrowsAt (some cand) s.markers.array (markSide y i cand p s).markers.array := by
  by_cases hp : p < 0
  · rw [markSide_absent y i s cand p hp, (newMarker_spec y i cand s).1]
    exact growsAt_append _ _ _
  · obtain ⟨idx, hidx⟩ : ∃ idx : Nat, p = (idx : Int) := ⟨p.toNat, by omega⟩
    rw [hidx]
    by_cases hx : (s.markers.array.getD idx default).x = cand
    · rw [markSide_extend y i s cand idx hx]
      exact growsAt_incr_h cand _ idx hx
    · rw [(markSide_link y i s cand _ idx rfl hx).1]
      exact growsAt_append _ _ _

theorem sideStep_growsAt (row : RowInfo) (y i : Nat) (s : TrackState) :
    GrowsAt (some (if i = 0 then (row.transparent_start : Int) - 1 else row.transparent_end))
      s.markers.array (sideStep row y i s).markers.array := by
  by_cases h0 : i = 0 ∧ row.transparent_start > 0
  · have hstep : sideStep row y i s
        = markSide y i ((row.transparent_start : Int) - 1) s.prev_left_index s := by
      simp only [sideStep, h0, and_self, ↓reduceIte]
    rw [hstep, if_pos h0.1]
    exact markSide_growsAt y i _ _ s
  · by_cases h1 : i = 1 ∧ row.transparent_end > row.transparent_start + 1
    · have hstep : sideStep row y i s
          = markSide y i (row.transparent_end : Int) s.prev_right_index s := by
        simp only [sideStep, h0, h1, and_self, ↓reduceIte, one_ne_zero, false_and]
      have hi : ¬ i = 0 := by omega
      rw [hstep, if_neg hi]
      exact markSide_growsAt y i _ _ s
    · have hstep : sideStep row y i s = s := by
        simp only [sideStep, h0, h1, ↓reduceIte]
      rw [hstep]
      exact growsAt_refl _ _

theorem topCap_growsAt (row : RowInfo) (y : Nat) (s : TrackState) :
    GrowsAt none s.markers.array (topCap row y s).markers.array := by
  unfold topCap add_marker_rectangle
  split
  · split
    · exact growsAt_refl _ _
    · exact growsAt_append _ _ _
  · exact growsAt_refl _ _

theorem emptyRow_growsAt (rows : Nat → RowInfo) (y : Nat) (s : TrackState) :
    GrowsAt none s.markers.array (emptyRow rows y s).markers.array := by
  unfold emptyRow add_marker_rectangle
  simp only
  split
  · split
    · exact growsAt_refl _ _
    · exact growsAt_append _ _ _
  · exact growsAt_refl _ _

/-! ## Claim C13 -/

/-- C13: for every sequence of row intervals, every row `y` and every state of the
tracking loop, the marker list after the row step is at least as long as before, and
every index below the earlier length still holds a rectangle with the same `x`, `y` and
`w` and with `h` unchanged or incremented by exactly 1. -/
theorem rowStep_growsFrom (rows : Nat → RowInfo) (y : Nat) (s : TrackState) :
    GrowsFrom s.markers.array (rowStep rows y s).markers.array := by
  unfold rowStep
  split
  · exact growsAt_to_growsFrom none _ _ (emptyRow_growsAt rows y s)
  · rename_i hne
    have hcap := topCap_growsAt (rows y) y s
    have hl := sideStep_growsAt (rows y) y 0 (topCap (rows y) y s)
    have hr := sideStep_growsAt (rows y) y 1 (sideStep (rows y) y 0 (topCap (rows y) y s))
    simp only [↓reduceIte, one_ne_zero] at hl hr
    have hl2 := growsAt_none_left _ _ _ _ hcap hl
    exact growsAt_two _ _ _ _ _ (by omega) hl2 hr

/-! ## Invariant lemmas -/

theorem mem_incr_h : ∀ (l : List MarkerWindow) (idx : Nat) (m2 : MarkerWindow),
    m2 ∈ incr_h l idx →
      m2 ∈ l ∨ ∃ m : MarkerWindow, l[idx]? = some m ∧ m2 = ⟨m.x, m.y, m.w, m.h + 1⟩
  | [], _, _, h => by simp [incr_h] at h
  | a :: ms, 0, m2, h => by
    simp only [incr_h, List.mem_cons] at h
    rcases h with h | h
    · right
      exact ⟨a, by simp, h⟩
    · left
      exact List.mem_cons_of_mem _ h
  | a :: ms, idx + 1, m2, h => by
    simp only [incr_h, List.mem_cons] at h
    rcases h with h | h
    · left
      rw [h]
      exact List.mem_cons_self _ _
    · rcases mem_incr_h ms idx m2 h with h1 | ⟨m, h1, h2⟩
      · left
        exact List.mem_cons_of_mem _ h1
      · right
        exact ⟨m, by simpa using h1, h2⟩

theorem regAt_append (l t : List MarkerWindow) (reg : Int) (x : Option Int) (b : Nat)
    (h : RegAt l reg x b) : RegAt (l ++ t) reg x b := by
  rcases h with h | ⟨idx, m, h1, h2, h3⟩
  · exact Or.inl h
  · right
    have hj : idx < l.length := (List.getElem?_eq_some.1 h2).1
    exact ⟨idx, m, h1, by rw [List.getElem?_append_left hj]; exact h2, h3⟩

theorem regAt_mono (l : List MarkerWindow) (reg : Int) (x : Option Int) (b b2 : Nat)
    (hb : b ≤ b2) (h : RegAt l reg x b) : RegAt l reg x b2 := by
  rcases h with h | ⟨idx, m, h1, h2, h3, h4, h5⟩
  · exact Or.inl h
  · exact Or.inr ⟨idx, m, h1, h2, h3, h4, by omega⟩

theorem regAt_lt (l : List MarkerWindow) (reg : Int) (x : Option Int) (b : Nat)
    (h : RegAt l reg x b) : reg < (l.length : Int) := by
  rcases h with h | ⟨idx, m, h1, h2, _⟩
  · omega
  · have hj : idx < l.length := (List.getElem?_eq_some.1 h2).1
    omega

theorem regAt_incr_h (l : List MarkerWindow) (reg : Int) (x : Option Int) (b idx : Nat)
    (hne : reg ≠ (idx : Int)) (h : RegAt l reg x b) : RegAt (incr_h l idx) reg x b := by
  rcases h with h | ⟨j, m, h1, h2, h3⟩
  · exact Or.inl h
  · right
    have hj : j ≠ idx := fun e => hne (by rw [h1, e])
    exact ⟨j, m, h1, by rw [incr_h_get_ne l idx j hj]; exact h2, h3⟩

theorem regAt_pos (W n : Nat) (l : List MarkerWindow) (reg : Int) (x : Option Int)
    (hgeo : ∀ m ∈ l, Geo W (n + 1) m) (h : RegAt l reg x n) (hreg : reg ≥ 0) : 1 ≤ n := by
  rcases h with h | ⟨idx, m, _, h2, _, _, h5⟩
  · omega
  · have hm : m ∈ l := List.getElem?_mem h2
    have hg := hgeo m hm
    unfold Geo at hg
    omega

theorem markSide_core (W n i : Nat) (cand p q : Int) (s : TrackState)
    (xp xq : Option Int) (bq : Nat)
    (hi : i = 0 ∨ i = 1)
    (hp : p = if i = 0 then s.prev_left_index else s.prev_right_index)
    (hq : q = if i = 0 then s.prev_right_index else s.prev_left_index)
    (hgeo : ∀ m ∈ s.markers.array, Geo W (n + 1) m)
    (hP : RegAt s.markers.array p xp n)
    (hQ : RegAt s.markers.array q xq bq)
    (hd : p ≥ 0 → q ≥ 0 → p ≠ q)
    (hc0 : 0 ≤ cand) (hcW : cand ≤ (W : Int)) :
    (∀ m ∈ (markSide n i cand p s).markers.array, Geo W (n + 1) m) ∧
    RegAt (markSide n i cand p s).markers.array
      (if i = 0 then (markSide n i cand p s).prev_left_index
        else (markSide n i cand p s).prev_right_index) (some cand) (n + 1) ∧
    RegAt (markSide n i cand p s).markers.array q xq bq ∧
    (if i = 0 then (markSide n i cand p s).prev_right_index
        else (markSide n i cand p s).prev_left_index) = q ∧
    (if i = 0 then (markSide n i cand p s).prev_left_index
        else (markSide n i cand p s).prev_right_index) ≥ 0 ∧
    (if i = 0 then (markSide n i cand p s).prev_left_index
        else (markSide n i cand p s).prev_right_index) ≠ q := by
  have hqlt := regAt_lt _ _ _ _ hQ
  have hnew : Geo W (n + 1) ⟨cand, n, 1, 1⟩ := by
    unfold Geo
    dsimp only
    exact ⟨by omega, by omega, Or.inl rfl, hc0, by omega, by omega, by omega⟩
  by_cases hneg : p < 0
  · rw [markSide_absent n i s cand p hneg]
    obtain ⟨n1, n2, n3⟩ := newMarker_spec n i cand s
    have hreg : (if i = 0 then (newMarker n i cand s).prev_left_index
        else (newMarker n i cand s).prev_right_index) = (s.markers.array.length : Int) := by
      rcases hi with hi | hi <;> subst hi <;> simp [n2, n3, MarkerWindowArray.n_used]
    have hoth : (if i = 0 then (newMarker n i cand s).prev_right_index
        else (newMarker n i cand s).prev_left_index) = q := by
      rcases hi with hi | hi <;> subst hi <;> simp [n2, n3, hq]
    rw [hreg, hoth, n1]
    refine ⟨?_, ?_, regAt_append _ _ _ _ _ hQ, rfl, by omega, by omega⟩
    · intro m hm
      rcases List.mem_append.1 hm with h | h
      · exact hgeo m h
      · rw [List.mem_singleton.1 h]
        exact hnew
    · right
      exact ⟨s.markers.array.length, ⟨cand, n, 1, 1⟩, rfl, by simp, rfl, rfl, by simp⟩
  · have hn1 := regAt_pos W n _ p xp hgeo hP (by omega)
    rcases hP with hP | ⟨idx, m, h1, h2, h3, _, h5⟩
    · omega
    · have hm : m ∈ s.markers.array := List.getElem?_mem h2
      have hg := hgeo m hm
      have hgetD : (s.markers.array.getD idx default) = m :=
        getD_of_getElem? s.markers.array idx m h2
      rw [h1]
      by_cases hx : m.x = cand
      · rw [markSide_extend n i s cand idx (by rw [hgetD]; exact hx)]
        simp only
        have hreg : (if i = 0 then s.prev_left_index else s.prev_right_index) = (idx : Int) := by
          rw [← hp, h1]
        rw [hreg, ← hq]
        refine ⟨?_, ?_, regAt_incr_h _ _ _ _ _ ?_ hQ, rfl, by omega, ?_⟩
        · intro m2 hm2
          rcases mem_incr_h _ _ _ hm2 with h | ⟨m0, h01, h02⟩
          · exact hgeo m2 h
          · rw [h2] at h01
            have hmm : m = m0 := by simpa using h01
            subst hmm
            rw [h02]
            unfold Geo at hg ⊢
            dsimp only
            exact ⟨by omega, by omega, Or.inl h3, by omega, by omega, by omega, by omega⟩
        · right
          refine ⟨idx, _, rfl, incr_h_get_eq _ _ m h2, h3, by simp [hx], ?_⟩
          unfold Geo at hg
          dsimp only
          omega
        · intro e
          by_cases hq0 : q ≥ 0
          · exact hd (by omega) hq0 (by rw [h1, e])
          · omega
        · intro e
          by_cases hq0 : q ≥ 0
          · exact hd (by omega) hq0 (by rw [h1, e])
          · omega
      · obtain ⟨l1, l2, l3⟩ := markSide_link n i s cand m.x idx (by rw [hgetD]) hx
        have habs : max cand m.x - min cand m.x = |cand - m.x| := max_sub_min_eq_abs' _ _
        have hreg : (if i = 0 then (markSide n i cand (idx : Int) s).prev_left_index
            else (markSide n i cand (idx : Int) s).prev_right_index)
            = (s.markers.array.length : Int) + 1 := by
          rcases hi with hi | hi <;> subst hi <;> simp [l2, l3, MarkerWindowArray.n_used]
        have hoth : (if i = 0 then (markSide n i cand (idx : Int) s).prev_right_index
            else (markSide n i cand (idx : Int) s).prev_left_index) = q := by
          rcases hi with hi | hi <;> subst hi <;> simp [l2, l3, hq]
        rw [hreg, hoth, l1]
        refine ⟨?_, ?_, regAt_append _ _ _ _ _ hQ, rfl, by omega, by omega⟩
        · intro m2 hm2
          rcases List.mem_append.1 hm2 with h | h
          · exact hgeo m2 h
          · simp only [List.mem_cons, List.mem_singleton, List.not_mem_nil, or_false] at h
            rcases h with h | h
            · rw [h]
              unfold Geo at hg ⊢
              dsimp only
              have hnn := abs_nonneg (cand - m.x)
              refine ⟨by omega, by omega, Or.inr rfl, by omega, by omega, ?_, ?_⟩
              · split <;> omega
              · split <;> omega
            · rw [h]
              exact hnew
        · right
          refine ⟨s.markers.array.length + 1, ⟨cand, n, 1, 1⟩, by simp, ?_, rfl, rfl, by simp⟩
          rw [List.getElem?_append_right (by omega)]
          simp

theorem geo_mono (W n n2 : Nat) (m : MarkerWindow) (hn : n ≤ n2) (h : Geo W n m) :
    Geo W n2 m := by
  unfold Geo at h ⊢
  exact ⟨h.1, h.2.1, h.2.2.1, h.2.2.2.1, h.2.2.2.2.1, h.2.2.2.2.2.1, by omega⟩

theorem regAt_of_openRegister (W n : Nat) (l : List MarkerWindow) (reg : Int)
    (x : Option Int) (hgeo : ∀ m ∈ l, Geo W n m) (h : OpenRegister l reg x) :
    RegAt l reg x n := by
  rcases h with h | ⟨idx, m, h1, h2, h3, h4⟩
  · exact Or.inl h
  · have hg := hgeo m (List.getElem?_mem h2)
    unfold Geo at hg
    exact Or.inr ⟨idx, m, h1, h2, h3, h4, hg.2.2.2.2.2.2⟩

theorem openRegister_of_regAt (l : List MarkerWindow) (reg : Int) (x : Option Int) (b : Nat)
    (h : RegAt l reg x b) : OpenRegister l reg x := by
  rcases h with h | ⟨idx, m, h1, h2, h3, h4, _⟩
  · exact Or.inl h
  · exact Or.inr ⟨idx, m, h1, h2, h3, h4⟩

theorem midInv_of_trackInv (W : Nat) (rows : Nat → RowInfo) (n : Nat) (s : TrackState)
    (h : TrackInv W rows n s) :
    MidInv W n s (lastLeftCandidate rows n) (lastRightCandidate rows n) n n :=
  ⟨fun m hm => geo_mono W n (n + 1) m (by omega) (h.1 m hm),
    regAt_of_openRegister W n _ _ _ h.1 h.2.1,
    regAt_of_openRegister W n _ _ _ h.1 h.2.2.1, h.2.2.2⟩

theorem topCap_midInv (W n : Nat) (row : RowInfo) (s : TrackState) (lx rx : Option Int)
    (lb rb : Nat) (hrow : row.transparent_start < row.transparent_end)
    (hW : row.transparent_end ≤ W) (h : MidInv W n s lx rx lb rb) :
    MidInv W n (topCap row n s) lx rx lb rb := by
  by_cases hc : s.prev_left_index < 0 ∧ n > 0
  · have ha := (add_marker_rectangle_array s.markers row.transparent_start ((n : Int) - 1)
      ((row.transparent_end : Int) - (row.transparent_start : Int)) 1
      (by omega) (by decide)).1
    have hstep : topCap row n s
        = ⟨(add_marker_rectangle s.markers row.transparent_start ((n : Int) - 1)
            ((row.transparent_end : Int) - (row.transparent_start : Int)) 1).1,
          s.prev_left_index, s.prev_right_index⟩ := by
      simp only [topCap, hc, and_self, ↓reduceIte]
    rw [hstep]
    unfold MidInv
    dsimp only
    rw [ha]
    refine ⟨?_, regAt_append _ _ _ _ _ h.2.1, regAt_append _ _ _ _ _ h.2.2.1, h.2.2.2⟩
    intro m hm
    rcases List.mem_append.1 hm with hm | hm
    · exact h.1 m hm
    · rw [List.mem_singleton.1 hm]
      unfold Geo
      dsimp only
      exact ⟨by omega, by omega, Or.inr rfl, by omega, by omega, by omega, by omega⟩
  · have hstep : topCap row n s = s := by
      simp only [topCap, hc, ↓reduceIte]
    rw [hstep]
    exact h

theorem sideStep_left_midInv (W n : Nat) (row : RowInfo) (s : TrackState)
    (lx rx : Option Int) (hrow : row.transparent_start < row.transparent_end)
    (hW : row.transparent_end ≤ W) (h : MidInv W n s lx rx n n) :
    MidInv W n (sideStep row n 0 s)
      (if row.transparent_start > 0 then some ((row.transparent_start : Int) - 1) else lx)
      rx (n + 1) n ∧
    (sideStep row n 0 s).prev_right_index = s.prev_right_index ∧
    (row.transparent_start > 0 → (sideStep row n 0 s).prev_left_index ≥ 0) := by
  by_cases hc : row.transparent_start > 0
  · have hstep : sideStep row n 0 s
        = markSide n 0 ((row.transparent_start : Int) - 1) s.prev_left_index s := by
      simp only [sideStep, hc, and_self, ↓reduceIte]
    obtain ⟨c1, c2, c3, c4, c5, c6⟩ := markSide_core W n 0 ((row.transparent_start : Int) - 1)
      s.prev_left_index s.prev_right_index s lx rx n (Or.inl rfl) rfl rfl h.1 h.2.1 h.2.2.1
      h.2.2.2 (by omega) (by omega)
    simp only [↓reduceIte] at c2 c4 c5 c6
    rw [hstep, if_pos hc]
    refine ⟨⟨c1, c2, ?_, ?_⟩, c4, fun _ => c5⟩
    · rw [c4]; exact c3
    · intro _ _
      rw [c4]
      exact c6
  · have hstep : sideStep row n 0 s = s := by
      simp only [sideStep, hc, and_false, ↓reduceIte, zero_ne_one, false_and]
    rw [hstep, if_neg hc]
    exact ⟨⟨h.1, regAt_mono _ _ _ n (n + 1) (by omega) h.2.1, h.2.2.1, h.2.2.2⟩, rfl,
      fun e => absurd e hc⟩

theorem sideStep_right_midInv (W n : Nat) (row : RowInfo) (s : TrackState)
    (lx rx : Option Int)
    (hW : row.transparent_end ≤ W) (h : MidInv W n s lx rx (n + 1) n) :
    MidInv W n (sideStep row n 1 s) lx
      (if row.transparent_end > row.transparent_start + 1
        then some (row.transparent_end : Int) else rx)
      (n + 1) (n + 1) ∧
    (sideStep row n 1 s).prev_left_index = s.prev_left_index ∧
    (row.transparent_end > row.transparent_start + 1 →
      (sideStep row n 1 s).prev_right_index ≥ 0) := by
  by_cases hc : row.transparent_end > row.transparent_start + 1
  · have hstep : sideStep row n 1 s
        = markSide n 1 (row.transparent_end : Int) s.prev_right_index s := by
      simp only [sideStep, hc, and_self, ↓reduceIte, one_ne_zero, false_and]
    obtain ⟨c1, c2, c3, c4, c5, c6⟩ := markSide_core W n 1 (row.transparent_end : Int)
      s.prev_right_index s.prev_left_index s rx lx (n + 1) (Or.inr rfl) rfl rfl h.1 h.2.2.1
      h.2.1 (fun a b e => h.2.2.2 b a e.symm) (by omega) (by omega)
    simp only [↓reduceIte, one_ne_zero] at c2 c4 c5 c6
    rw [hstep, if_pos hc]
    refine ⟨⟨c1, ?_, c2, ?_⟩, c4, fun _ => c5⟩
    · rw [c4]; exact c3
    · intro _ _
      rw [c4]
      exact fun e => c6 e.symm
  · have hstep : sideStep row n 1 s = s := by
      simp only [sideStep, hc, and_false, ↓reduceIte, one_ne_zero, false_and]
    rw [hstep, if_neg hc]
    exact ⟨⟨h.1, h.2.1, regAt_mono _ _ _ n (n + 1) (by omega) h.2.2.1, h.2.2.2⟩, rfl,
      fun e => absurd e hc⟩

theorem emptyRow_step (rows : Nat → RowInfo) (y : Nat) (s : TrackState)
    (hempty : (rows y).transparent_start ≥ (rows y).transparent_end) :
    (rowStep rows y s).markers.array =
      (if 0 < y ∧ (rows (y - 1)).transparent_start < (rows (y - 1)).transparent_end then
        s.markers.array ++
          [⟨(rows (y - 1)).transparent_start, y,
            ((rows (y - 1)).transparent_end : Int) - ((rows (y - 1)).transparent_start : Int),
            1⟩]
      else s.markers.array) ∧
    (rowStep rows y s).prev_left_index = -1 ∧
    (rowStep rows y s).prev_right_index = -1 := by
  have hstep : rowStep rows y s = emptyRow rows y s := by
    simp only [rowStep, hempty, ↓reduceIte]
  rw [hstep]
  refine ⟨?_, rfl, rfl⟩
  unfold emptyRow
  dsimp only
  split
  · rename_i hc
    exact (add_marker_rectangle_array s.markers (rows (y - 1)).transparent_start y
      (((rows (y - 1)).transparent_end : Int) - ((rows (y - 1)).transparent_start : Int)) 1
      (by omega) (by decide)).1
  · rfl

theorem emptyRow_trackInv (W : Nat) (rows : Nat → RowInfo) (n : Nat) (s : TrackState)
    (hempty : (rows n).transparent_start ≥ (rows n).transparent_end)
    (hprev : 0 < n → (rows (n - 1)).transparent_end ≤ W)
    (h : TrackInv W rows n s) : TrackInv W rows (n + 1) (rowStep rows n s) := by
  obtain ⟨e1, e2, e3⟩ := emptyRow_step rows n s hempty
  unfold TrackInv
  rw [e2, e3]
  refine ⟨?_, Or.inl rfl, Or.inl rfl, fun hneg => absurd hneg (by decide)⟩
  rw [e1]
  by_cases hc : 0 < n ∧ (rows (n - 1)).transparent_start < (rows (n - 1)).transparent_end
  · rw [if_pos hc]
    intro m hm
    rcases List.mem_append.1 hm with hm | hm
    · exact geo_mono W n (n + 1) m (by omega) (h.1 m hm)
    · rw [List.mem_singleton.1 hm]
      have := hprev hc.1
      unfold Geo
      dsimp only
      exact ⟨by omega, by omega, Or.inr rfl, by omega, by omega, by omega, by omega⟩
  · rw [if_neg hc]
    intro m hm
    exact geo_mono W n (n + 1) m (by omega) (h.1 m hm)

theorem rowStep_trackInv (W : Nat) (rows : Nat → RowInfo) (n : Nat) (s : TrackState)
    (hW : (rows n).transparent_end ≤ W)
    (hprev : 0 < n → (rows (n - 1)).transparent_end ≤ W)
    (h : TrackInv W rows n s) : TrackInv W rows (n + 1) (rowStep rows n s) := by
  by_cases hempty : (rows n).transparent_start ≥ (rows n).transparent_end
  · exact emptyRow_trackInv W rows n s hempty hprev h
  · have hrow : (rows n).transparent_start < (rows n).transparent_end := by omega
    have hstep : rowStep rows n s
        = sideStep (rows n) n 1 (sideStep (rows n) n 0 (topCap (rows n) n s)) := by
      simp only [rowStep, hempty, ↓reduceIte]
    have h0 := topCap_midInv W n (rows n) s _ _ n n hrow hW (midInv_of_trackInv W rows n s h)
    have h1 := (sideStep_left_midInv W n (rows n) _ _ _ hrow hW h0).1
    have h2 := (sideStep_right_midInv W n (rows n) _ _ _ hW h1).1
    rw [← hstep] at h2
    have hl : lastLeftCandidate rows (n + 1)
        = (if (rows n).transparent_start > 0
            then some (((rows n).transparent_start : Int) - 1)
            else lastLeftCandidate rows n) := by
      simp only [lastLeftCandidate, hrow, true_and]
    have hr : lastRightCandidate rows (n + 1)
        = (if (rows n).transparent_end > (rows n).transparent_start + 1
            then some ((rows n).transparent_end : Int)
            else lastRightCandidate rows n) := by
      simp only [lastRightCandidate, hrow, true_and]
    unfold TrackInv
    rw [hl, hr]
    exact ⟨h2.1, openRegister_of_regAt _ _ _ _ h2.2.1, openRegister_of_regAt _ _ _ _ h2.2.2.1,
      h2.2.2.2⟩

theorem trackRows_trackInv (W : Nat) (rows : Nat → RowInfo) :
    ∀ n, (∀ y, y < n → (rows y).transparent_end ≤ W) → TrackInv W rows n (trackRows rows n)
  | 0, _ => by
    unfold TrackInv trackRows initState
    refine ⟨?_, Or.inl rfl, Or.inl rfl, fun hneg => absurd hneg (by decide)⟩
    intro m hm
    exact absurd hm (List.not_mem_nil m)
  | n + 1, h => by
    have ih := trackRows_trackInv W rows n (fun y hy => h y (by omega))
    exact rowStep_trackInv W rows n _ (h n (by omega)) (fun hn => h (n - 1) (by omega)) ih

theorem rows_bounded (rows : Nat → RowInfo) :
    ∀ n, ∃ W, ∀ y, y < n → (rows y).transparent_end ≤ W
  | 0 => ⟨0, fun y hy => absurd hy (by omega)⟩
  | n + 1 => by
    obtain ⟨W, hW⟩ := rows_bounded rows n
    refine ⟨max W (rows n).transparent_end, fun y hy => ?_⟩
    by_cases hyn : y = n
    · rw [hyn]
      exact le_max_right _ _
    · exact le_trans (hW y (by omega)) (le_max_left _ _)

theorem scanRow_end_le (img : Image) (y : Nat) (hW : 1 ≤ img.image_width) :
    (scanRow img y).transparent_end ≤ img.image_width := by
  by_cases hT : img.isTransparent (img.image_width / 2) y = true
  · exact (scanRow_centre img y hW hT).2.2.2.1
  · simp only [Bool.not_eq_true] at hT
    by_cases hx : ∃ x, img.image_width / 2 < x ∧ x < img.image_width ∧
        img.isTransparent x y = true
    · exact (scanRow_right img y hT hx).2.2.2.2.1
    · have hnone : ∀ x, img.image_width / 2 < x → x < img.image_width →
          img.isTransparent x y = false := by
        intro x h1 h2
        by_contra ht
        exact hx ⟨x, h1, h2, by simpa using ht⟩
      rw [scanRow_none img y hT hnone]
      exact Nat.zero_le _

theorem sideStep_link_length (row : RowInfo) (y i : Nat) (s : TrackState)
    (h : reachesLink row i s) :
    (sideStep row y i s).markers.array.length = s.markers.array.length + 2 := by
  rcases h with ⟨hi, hpos, hreg, hx⟩ | ⟨hi, hpos, hreg, hx⟩
  · subst hi
    have hstep : sideStep row y 0 s
        = markSide y 0 ((row.transparent_start : Int) - 1) s.prev_left_index s := by
      simp only [sideStep, hpos, and_self, ↓reduceIte]
    have hidx : s.prev_left_index = (s.prev_left_index.toNat : Int) := by omega
    rw [hstep, hidx, (markSide_link y 0 s _ _ _ rfl hx).1]
    simp
  · subst hi
    have hstep : sideStep row y 1 s
        = markSide y 1 (row.transparent_end : Int) s.prev_right_index s := by
      simp only [sideStep, hpos, and_self, ↓reduceIte, one_ne_zero, false_and]
    have hidx : s.prev_right_index = (s.prev_right_index.toNat : Int) := by omega
    rw [hstep, hidx, (markSide_link y 1 s _ _ _ rfl hx).1]
    simp

/-! ## Claims C17 and C18 -/

/-- C17: at the start of every row `y` of the tracking loop each register is absent (-1)
or the index of a stored rectangle with `w = 1` whose `x` is the candidate column of the
most recent row in which that side had a valid candidate; when both are present they
differ; both are absent at `y = 0`.  The link branch of either side is entered only with
`y > 0`, so `assert(y > 0)` holds.  Every stored rectangle has `w >= 1` and `h >= 1`; the
top cap and the link with its marker are accepted (the list grows by 1 and by 2), and a
side with a valid candidate ends the row with a register that is not negative. -/
theorem register_invariant (rows : Nat → RowInfo) (y : Nat) :
    OpenRegister (trackRows rows y).markers.array (trackRows rows y).prev_left_index
      (lastLeftCandidate rows y) ∧
    OpenRegister (trackRows rows y).markers.array (trackRows rows y).prev_right_index
      (lastRightCandidate rows y) ∧
    ((trackRows rows y).prev_left_index ≥ 0 → (trackRows rows y).prev_right_index ≥ 0 →
      (trackRows rows y).prev_left_index ≠ (trackRows rows y).prev_right_index) ∧
    ((trackRows rows 0).prev_left_index = -1 ∧ (trackRows rows 0).prev_right_index = -1) ∧
    ((rows y).nonEmpty →
      (reachesLink (rows y) 0 (topCap (rows y) y (trackRows rows y)) →
        0 < y ∧
        (sideStep (rows y) y 0 (topCap (rows y) y (trackRows rows y))).markers.array.length
          = (topCap (rows y) y (trackRows rows y)).markers.array.length + 2) ∧
      (reachesLink (rows y) 1
          (sideStep (rows y) y 0 (topCap (rows y) y (trackRows rows y))) →
        0 < y ∧
        (sideStep (rows y) y 1
            (sideStep (rows y) y 0 (topCap (rows y) y (trackRows rows y)))).markers.array.length
          = (sideStep (rows y) y 0
              (topCap (rows y) y (trackRows rows y))).markers.array.length + 2)) ∧
    (∀ m ∈ (trackRows rows y).markers.array, 1 ≤ m.w ∧ 1 ≤ m.h) ∧
    ((rows y).nonEmpty → (trackRows rows y).prev_left_index < 0 → 0 < y →
      (topCap (rows y) y (trackRows rows y)).markers.array.length
        = (trackRows rows y).markers.array.length + 1) ∧
    ((rows y).nonEmpty →
      ((rows y).transparent_start > 0 →
        (rowStep rows y (trackRows rows y)).prev_left_index ≥ 0) ∧
      ((rows y).transparent_end > (rows y).transparent_start + 1 →
        (rowStep rows y (trackRows rows y)).prev_right_index ≥ 0)) := by
  obtain ⟨W, hW⟩ := rows_bounded rows (y + 1)
  have hinv := trackRows_trackInv W rows y (fun z hz => hW z (by omega))
  have hWy := hW y (by omega)
  refine ⟨hinv.2.1, hinv.2.2.1, hinv.2.2.2, ⟨rfl, rfl⟩, ?_, ?_, ?_, ?_⟩
  · intro hrow
    have h0 := topCap_midInv W y (rows y) _ _ _ y y hrow hWy
      (midInv_of_trackInv W rows y _ hinv)
    have h1 := (sideStep_left_midInv W y (rows y) _ _ _ hrow hWy h0).1
    constructor
    · intro hl
      refine ⟨?_, sideStep_link_length (rows y) y 0 _ hl⟩
      rcases hl with ⟨_, _, hreg, _⟩ | ⟨hi, _⟩
      · exact regAt_pos W y _ _ _ h0.1 h0.2.1 hreg
      · exact absurd hi (by decide)
    · intro hl
      refine ⟨?_, sideStep_link_length (rows y) y 1 _ hl⟩
      rcases hl with ⟨hi, _⟩ | ⟨_, _, hreg, _⟩
      · exact absurd hi (by decide)
      · exact regAt_pos W y _ _ _ h1.1 h1.2.2.1 hreg
  · intro m hm
    have hg := hinv.1 m hm
    unfold Geo at hg
    exact ⟨hg.1, hg.2.1⟩
  · intro hrow hneg hy
    have hrow2 : (rows y).transparent_start < (rows y).transparent_end := hrow
    have ha := (add_marker_rectangle_array (trackRows rows y).markers
      (rows y).transparent_start ((y : Int) - 1)
      (((rows y).transparent_end : Int) - ((rows y).transparent_start : Int)) 1
      (by omega) (by decide)).1
    simp only [topCap, hneg, hy, gt_iff_lt, and_self, ↓reduceIte, ha, List.length_append,
      List.length_singleton]
  · intro hrow
    have hrow2 : (rows y).transparent_start < (rows y).transparent_end := hrow
    have hne : ¬ (rows y).transparent_start ≥ (rows y).transparent_end := by omega
    have hstep : rowStep rows y (trackRows rows y)
        = sideStep (rows y) y 1 (sideStep (rows y) y 0 (topCap (rows y) y (trackRows rows y))) := by
      simp only [rowStep, hne, ↓reduceIte]
    have h0 := topCap_midInv W y (rows y) _ _ _ y y hrow hWy
      (midInv_of_trackInv W rows y _ hinv)
    obtain ⟨h1, _, hl⟩ := sideStep_left_midInv W y (rows y) _ _ _ hrow hWy h0
    obtain ⟨_, hkeep, hr⟩ := sideStep_right_midInv W y (rows y) _ _ _ hWy h1
    rw [hstep]
    exact ⟨fun hc => by rw [hkeep]; exact hl hc, hr⟩

/-- C18: for every image of width `W > 0` and height `H > 0`, every rectangle
`(x, y, w, h)` of the final marker list satisfies `w >= 1`, `h >= 1`, `w = 1` or `h = 1`,
`0 <= x`, `x + w <= W + 1`, `0 <= y` and `y + h <= H`.  A band that touches the bottom
edge gets no bottom cap (5x2 image, columns 1 and 2), and a right marker can sit in
column `W` (4x1 image, columns 1 to 3). -/
theorem marker_geometry (img : Image) (hW : 0 < img.image_width)
    (_hH : 0 < img.image_height) :
    (∀ m ∈ (load_overlay_image_and_determine_marker_lines img).array,
      Geo img.image_width img.image_height m) ∧
    (load_overlay_image_and_determine_marker_lines (columnBand 5 2 1 3)).array =
      [⟨0, 0, 1, 2⟩, ⟨3, 0, 1, 2⟩] ∧
    (load_overlay_image_and_determine_marker_lines (columnBand 4 1 1 4)).array =
      [⟨0, 0, 1, 1⟩, ⟨4, 0, 1, 1⟩] :=
  ⟨(trackRows_trackInv img.image_width (scanRow img) img.image_height
      (fun y _ => scanRow_end_le img y hW)).1, by decide, by decide⟩

/-- Witness of C18: the 5x5 centre-block image. -/
theorem marker_geometry_witness :
    0 < centreBlock5.image_width ∧ 0 < centreBlock5.image_height ∧
    ∀ m ∈ (load_overlay_image_and_determine_marker_lines centreBlock5).array,
      Geo centreBlock5.image_width centreBlock5.image_height m :=
  ⟨by decide, by decide, (marker_geometry centreBlock5 (by decide) (by decide)).1⟩

/-! ## The countdown away from midnight -/

theorem calculate_of_delta (ex cur : SYSTEMTIME) (d : Nat)
    (hd : ex.totalMs = cur.totalMs + d) (hlt : d < 24 * 60 * 60 * 1000) :
    (calculate_time_until_expiry ex cur).2 = true ∧
    (calculate_time_until_expiry ex cur).1.totalMs = d ∧
    (calculate_time_until_expiry ex cur).1.wMinute < 60 ∧
    (calculate_time_until_expiry ex cur).1.wSecond < 60 ∧
    (calculate_time_until_expiry ex cur).1.wMilliseconds < 1000 := by
  have hdelta : ((((ex.wHour : Int) - (cur.wHour : Int))
      * 60 + (ex.wMinute : Int) - (cur.wMinute : Int))
      * 60 + (ex.wSecond : Int) - (cur.wSecond : Int))
      * 1000 + (ex.wMilliseconds : Int) - (cur.wMilliseconds : Int) = (d : Int) := by
    simp only [SYSTEMTIME.totalMs] at hd
    omega
  have hnn : ¬ (d : Int) < 0 := by omega
  simp only [calculate_time_until_expiry, hdelta, hnn, ↓reduceIte, Int.toNat_ofNat,
    SYSTEMTIME.totalMs, not_false_eq_true, decide_True, true_and]
  refine ⟨?_, ?_, ?_, ?_⟩ <;> omega

theorem set_expiry_time_totalMs (t0 : SYSTEMTIME) (minutes : Nat)
    (hh : t0.wHour < 24) (hm : t0.wMinute < 60) (hmin : minutes < 1440) :
    (set_expiry_time t0 minutes).totalMs = t0.totalMs + minutes * 60000 := by
  simp only [set_expiry_time, SYSTEMTIME.totalMs]
  omega

theorem timeOfDayAfter_totalMs (t0 : SYSTEMTIME) (e : Nat)
    (hday : t0.totalMs + e < 24 * 60 * 60 * 1000) :
    (timeOfDayAfter t0 e).totalMs = t0.totalMs + e := by
  have hmod : (t0.totalMs + e) % (24 * 60 * 60 * 1000) = t0.totalMs + e :=
    Nat.mod_eq_of_lt hday
  simp only [timeOfDayAfter, hmod]
  generalize t0.totalMs + e = T
  simp only [SYSTEMTIME.totalMs]
  omega

/-- When the local time does not pass midnight between the start and the second reading,
the countdown is exact: `calculate_time_until_expiry` returns true and the remaining time
totals `MINUTES * 60000 - e` milliseconds with minutes and seconds below 60 and
milliseconds below 1000. -/
theorem countdown_exact_before_midnight (t0 : SYSTEMTIME) (minutes e : Nat)
    (hh : t0.wHour < 24) (hm : t0.wMinute < 60) (hmin : minutes < 1440)
    (he : e ≤ minutes * 60000) (hday : t0.totalMs + e < 24 * 60 * 60 * 1000) :
    (calculate_time_until_expiry (set_expiry_time t0 minutes) (timeOfDayAfter t0 e)).2 = true ∧
    (calculate_time_until_expiry (set_expiry_time t0 minutes)
      (timeOfDayAfter t0 e)).1.totalMs = minutes * 60000 - e ∧
    (calculate_time_until_expiry (set_expiry_time t0 minutes)
      (timeOfDayAfter t0 e)).1.wMinute < 60 ∧
    (calculate_time_until_expiry (set_expiry_time t0 minutes)
      (timeOfDayAfter t0 e)).1.wSecond < 60 ∧
    (calculate_time_until_expiry (set_expiry_time t0 minutes)
      (timeOfDayAfter t0 e)).1.wMilliseconds < 1000 := by
  apply calculate_of_delta
  · rw [set_expiry_time_totalMs t0 minutes hh hm hmin, timeOfDayAfter_totalMs t0 e hday]
    omega
  · omega

end Overhead
